import Mathlib

/-!
# Process selector: compatibility engine and CSV configuration builder

A shallow embedding of `src/app.js`.

* JavaScript strings are lists of characters (`Str`).
* A JavaScript object used as a dictionary is an insertion-ordered list of
  key/value pairs whose keys are pairwise distinct (`JSObject`).  Reading a
  missing key gives `none` (the `undefined` of the source).
* A value stored in a compatibility map is either an array of option ids or
  some value that is not an array (`CompatValue`), as the source tests
  `Array.isArray` before using it.
* Module-level mutable state (`state`, `processEntries`) is an explicit
  `AppState` record passed to, and returned from, the functions reading it.
* The keys of a `JSObject` are ordinary property names; the enumeration order of
  integer-like keys is outside the model and no statement below depends on it.
  The one object that the program fills under a name read from its input, the
  `compatibility` object of a data row, is a `RowObject`, which tells own
  properties from the prototype that the name `__proto__` designates.
-/

set_option autoImplicit false
set_option maxRecDepth 100000

/-- A JavaScript string, as its sequence of characters. -/
abbrev Str := List Char

/-! ## Insertion-ordered dictionaries -/

namespace Assoc

variable {V : Type}

/-- Reading `obj[k]` on the raw entry list: the value of the first entry with key `k`. -/
def find (k : Str) : List (Str × V) → Option V
  | [] => none
  | (k', v) :: rest => if k' = k then some v else find k rest

/-- Writing `obj[k] = v` on the raw entry list: replace in place, or append a new key. -/
def put (k : Str) (v : V) : List (Str × V) → List (Str × V)
  | [] => [(k, v)]
  | (k', v') :: rest => if k' = k then (k, v) :: rest else (k', v') :: put k v rest

/-- Removing key `k` from the raw entry list. -/
def del (k : Str) : List (Str × V) → List (Str × V)
  | [] => []
  | (k', v') :: rest => if k' = k then del k rest else (k', v') :: del k rest

/-- The keys of the raw entry list, in order. -/
def keysOf (l : List (Str × V)) : List Str := l.map Prod.fst

theorem keysOf_put (k : Str) (v : V) (l : List (Str × V)) :
    keysOf (put k v l) = if k ∈ keysOf l then keysOf l else keysOf l ++ [k] := by
  induction l with
  | nil => simp [put, keysOf]
  | cons hd tl ih =>
    obtain ⟨k', v'⟩ := hd
    by_cases h : k' = k
    · subst h
      simp only [put, keysOf, if_true, List.map_cons, List.mem_cons, true_or]
    · have h' : ¬ k = k' := fun e => h e.symm
      simp only [keysOf] at ih
      simp only [put, h, if_false, keysOf, List.map_cons, List.mem_cons, h', false_or, ih]
      split <;> simp

theorem nodup_keysOf_put (k : Str) (v : V) (l : List (Str × V)) (h : (keysOf l).Nodup) :
    (keysOf (put k v l)).Nodup := by
  rw [keysOf_put]
  split
  · exact h
  · rename_i hk
    exact List.Nodup.append h (List.nodup_singleton k) (by simpa using hk)

theorem keysOf_del (k : Str) (l : List (Str × V)) :
    keysOf (del k l) = (keysOf l).filter (fun x => decide (x ≠ k)) := by
  induction l with
  | nil => simp [del, keysOf]
  | cons hd tl ih =>
    obtain ⟨k', v'⟩ := hd
    simp only [keysOf] at ih
    by_cases h : k' = k
    · simp [del, keysOf, h, ih]
    · simp [del, keysOf, h, ih]

theorem nodup_keysOf_del (k : Str) (l : List (Str × V)) (h : (keysOf l).Nodup) :
    (keysOf (del k l)).Nodup := by
  rw [keysOf_del]
  exact h.filter _

theorem find_put_self (k : Str) (v : V) (l : List (Str × V)) :
    find k (put k v l) = some v := by
  induction l with
  | nil => simp [put, find]
  | cons hd tl ih =>
    obtain ⟨k', v'⟩ := hd
    by_cases h : k' = k
    · simp [put, find, h]
    · simp [put, find, h, ih]

theorem find_put_ne (k j : Str) (v : V) (l : List (Str × V)) (hj : j ≠ k) :
    find j (put k v l) = find j l := by
  induction l with
  | nil =>
    have : ¬ k = j := fun e => hj e.symm
    simp [put, find, this]
  | cons hd tl ih =>
    obtain ⟨k', v'⟩ := hd
    by_cases h : k' = k
    · subst h
      have : ¬ k' = j := fun e => hj e.symm
      simp [put, find, this]
    · by_cases h2 : k' = j
      · subst h2
        simp only [put, find, h, if_false, if_true]
      · simp only [put, find, h, h2, if_false, ih]

theorem find_eq_none_iff (k : Str) (l : List (Str × V)) :
    find k l = none ↔ k ∉ keysOf l := by
  induction l with
  | nil => simp [find, keysOf]
  | cons hd tl ih =>
    obtain ⟨k', v'⟩ := hd
    simp only [keysOf] at ih
    by_cases h : k' = k
    · subst h
      simp only [find, keysOf, if_true, List.map_cons, List.mem_cons, true_or, not_true_eq_false,
        iff_false]
      exact fun e => Option.noConfusion e
    · have h' : ¬ k = k' := fun e => h e.symm
      simp only [find, keysOf, h, if_false, List.map_cons, List.mem_cons, h', false_or, ih]

theorem find_of_mem (l : List (Str × V)) (h : (keysOf l).Nodup) (k : Str) (v : V)
    (hm : (k, v) ∈ l) : find k l = some v := by
  induction l with
  | nil => simp at hm
  | cons hd tl ih =>
    obtain ⟨k', v'⟩ := hd
    simp only [keysOf, List.map_cons, List.nodup_cons] at h
    rcases List.mem_cons.mp hm with e | hm'
    · cases e; simp [find]
    · have : k' ≠ k := by
        rintro rfl
        exact h.1 (List.mem_map.mpr ⟨(k', v), hm', rfl⟩)
      simp [find, this, ih h.2 hm']

theorem mem_of_find (l : List (Str × V)) (k : Str) (v : V)
    (hl : find k l = some v) : (k, v) ∈ l := by
  induction l with
  | nil => simp [find] at hl
  | cons hd tl ih =>
    obtain ⟨k', v'⟩ := hd
    by_cases h : k' = k
    · simp [find, h] at hl
      subst h; subst hl; simp
    · simp [find, h] at hl
      exact List.mem_cons_of_mem _ (ih hl)

end Assoc

/-- A JavaScript object used as a dictionary: own enumerable string-keyed
properties in insertion order, keys pairwise distinct. -/
structure JSObject (V : Type) where
  entries : List (Str × V)
  nodup : (Assoc.keysOf entries).Nodup

namespace JSObject

variable {V : Type}

/-- The object literal with no properties. -/
def empty : JSObject V := ⟨[], List.nodup_nil⟩

/-- Property read `obj[k]`; `none` stands for `undefined`. -/
def get? (o : JSObject V) (k : Str) : Option V := Assoc.find k o.entries

/-- Property write `obj[k] = v`. -/
def set (o : JSObject V) (k : Str) (v : V) : JSObject V :=
  ⟨Assoc.put k v o.entries, Assoc.nodup_keysOf_put k v o.entries o.nodup⟩

/-- Rest-destructuring without key `k`: a copy of the object lacking that key. -/
def erase (o : JSObject V) (k : Str) : JSObject V :=
  ⟨Assoc.del k o.entries, Assoc.nodup_keysOf_del k o.entries o.nodup⟩

/-- The list of own keys, as given by `Object.keys`. -/
def keys (o : JSObject V) : List Str := Assoc.keysOf o.entries

/-- Whether the object has own key `k`. -/
def hasKey (o : JSObject V) (k : Str) : Bool := (o.get? k).isSome

/-- Building an object from a list of pairs, later pairs overwriting earlier ones. -/
def fromEntries (l : List (Str × V)) : JSObject V :=
  l.foldl (fun o kv => o.set kv.1 kv.2) empty

instance [DecidableEq V] : DecidableEq (JSObject V) := fun a b =>
  match a, b with
  | ⟨ea, _⟩, ⟨eb, _⟩ =>
    if h : ea = eb then isTrue (by subst h; rfl)
    else isFalse (fun e => h (by cases e; rfl))

theorem ext_entries {a b : JSObject V} (h : a.entries = b.entries) : a = b := by
  cases a; cases b; cases h; rfl

theorem get?_set_self (o : JSObject V) (k : Str) (v : V) : (o.set k v).get? k = some v :=
  Assoc.find_put_self k v o.entries

theorem get?_set_ne (o : JSObject V) (k j : Str) (v : V) (hj : j ≠ k) :
    (o.set k v).get? j = o.get? j :=
  Assoc.find_put_ne k j v o.entries hj

theorem get?_eq_none_iff (o : JSObject V) (k : Str) : o.get? k = none ↔ k ∉ o.keys :=
  Assoc.find_eq_none_iff k o.entries

theorem get?_of_mem (o : JSObject V) (k : Str) (v : V) (hm : (k, v) ∈ o.entries) :
    o.get? k = some v :=
  Assoc.find_of_mem o.entries o.nodup k v hm

theorem mem_of_get? (o : JSObject V) (k : Str) (v : V) (h : o.get? k = some v) :
    (k, v) ∈ o.entries :=
  Assoc.mem_of_find o.entries k v h

theorem hasKey_iff_mem_keys (o : JSObject V) (k : Str) : o.hasKey k = true ↔ k ∈ o.keys := by
  unfold hasKey
  rw [Option.isSome_iff_ne_none, Ne, get?_eq_none_iff, not_not]

end JSObject

/-! ## Data model -/

/-- A value stored under a category key of a compatibility map: an array of
option ids, or a value for which `Array.isArray` is false. -/
inductive CompatValue where
  | arr (values : List Str)
  | other (raw : Str)
  deriving DecidableEq, Repr

/-- A compatibility map: category id to allowed values. -/
abbrev CompatMap := JSObject CompatValue

/-- A selection: category id to the chosen option id. -/
abbrev Selection := JSObject Str

/-- A variant of a process.  The three compatibility layers are optional
properties (the source reads them through `??`). -/
structure Variant where
  id : Str
  label : Str
  shortLabel : Str
  summary : Str
  compatibility : Option CompatMap
  refinements : Option CompatMap
  compatibilityOverrides : Option CompatMap
  deriving DecidableEq

/-- A process with its own compatibility map and its variants.  The map is always
present (the CSV builder stores an empty object), and a missing `variants` is the
empty list. -/
structure Process where
  id : Str
  label : Str
  shortLabel : Str
  compatibility : CompatMap
  variants : List Variant
  deriving DecidableEq

/-- An option of a category. -/
structure OptionDef where
  id : Str
  label : Str
  deriving DecidableEq, Repr

/-- A filter category with its options in declaration order. -/
structure Category where
  id : Str
  label : Str
  options : List OptionDef
  deriving DecidableEq, Repr

/-- The configuration produced by the loader. -/
structure Configuration where
  categories : List Category
  processes : List Process
  deriving DecidableEq

/-- The `type` tag of a flattened entry. -/
inductive EntryType where
  | process
  | variant
  deriving DecidableEq, Repr

/-- A flattened entry of `processEntries`; `none` in the parent fields is `null`. -/
structure Entry where
  type : EntryType
  id : Str
  label : Str
  shortLabel : Str
  compatibility : CompatMap
  parentId : Option Str
  parentLabel : Option Str
  deriving DecidableEq

/-- The module-level mutable state: `state.config`, `state.selected` and `processEntries`. -/
structure AppState where
  config : Option Configuration
  selected : Selection
  processEntries : List Entry
  deriving DecidableEq

/-! ## Compatibility model and constraint resolver -/

/-- The copy made of one value: `Array.isArray(values) ? [...values] : values`. -/
def cloneValue : CompatValue → CompatValue
  | .arr values => .arr values
  | .other raw => .other raw

/-- Source `cloneCompatibility`: a fresh object with every entry of `source` copied. -/
def cloneCompatibility (source : CompatMap) : CompatMap :=
  source.entries.foldl (fun clone kv => clone.set kv.1 (cloneValue kv.2)) JSObject.empty

/-- Source `mergeCompatibility`: clone `base`, then write every entry of `overrides` over it. -/
def mergeCompatibility (base overrides : CompatMap) : CompatMap :=
  overrides.entries.foldl (fun merged kv => merged.set kv.1 (cloneValue kv.2))
    (cloneCompatibility base)

/-- Source `resolveVariantCompatibility`: the three-layer merge for a variant. -/
def resolveVariantCompatibility (process : Process) (variant : Variant) : CompatMap :=
  let refinements := variant.refinements.getD JSObject.empty
  let fallback := variant.compatibility.getD JSObject.empty
  let baseOverrides := if refinements.keys.length > 0 then refinements else fallback
  let overrides := variant.compatibilityOverrides.getD JSObject.empty
  mergeCompatibility (mergeCompatibility process.compatibility baseOverrides) overrides

/-- Source `buildProcessEntries`: one entry per process followed by one per variant. -/
def buildProcessEntries (processes : List Process) : List Entry :=
  processes.foldl (fun entries proc =>
    let processCompatibility := cloneCompatibility proc.compatibility
    let entries := entries ++ [{
      type := .process, id := proc.id, label := proc.label, shortLabel := proc.shortLabel,
      compatibility := processCompatibility, parentId := none, parentLabel := none }]
    proc.variants.foldl (fun entries variant =>
      let compatibility := resolveVariantCompatibility proc variant
      entries ++ [{
        type := .variant, id := variant.id, label := variant.label,
        shortLabel := variant.shortLabel, compatibility := compatibility,
        parentId := some proc.id, parentLabel := some proc.label }]) entries) []

/-- Source `isCompatible`: every selected pair must be allowed by `requirements`. -/
def isCompatible (requirements : CompatMap) (selections : Selection) : Bool :=
  selections.entries.all (fun kv =>
    match requirements.get? kv.1 with
    | some (.arr allowed) => decide (kv.2 ∈ allowed)
    | _ => false)

/-- Source `optionIsSupported`: does some entry accept the current selection with
`categoryId` set to `optionId`?  The state is read, and handed back as it was. -/
def optionIsSupported (st : AppState) (categoryId optionId : Str) : Bool × AppState :=
  let hypotheticalSelection := st.selected.set categoryId optionId
  (st.processEntries.any (fun entry => isCompatible entry.compatibility hypotheticalSelection),
   st)

/-- The result record of `buildVariantStates` for one variant. -/
structure VariantState where
  variant : Variant
  compatibility : CompatMap
  isMatch : Bool
  deriving DecidableEq

/-- Source `buildVariantStates`: each variant with its effective map and its match flag. -/
def buildVariantStates (process : Process) (selections : Selection) : List VariantState :=
  process.variants.map (fun variant =>
    let compatibility := resolveVariantCompatibility process variant
    let isMatch := isCompatible compatibility selections
    { variant := variant, compatibility := compatibility, isMatch := isMatch })

/-- What `updateResults` computes for the card of one process. -/
structure ProcessMatchState where
  process : Process
  baseMatch : Bool
  variantStates : List VariantState
  deriving DecidableEq

/-- What `updateResults` computes: the cards in process order, the `anyMatch` flag and
whether the empty-state message is shown. -/
structure ResultsView where
  cards : List ProcessMatchState
  anyMatch : Bool
  showEmptyState : Bool
  deriving DecidableEq

/-- One iteration of the `forEach` of `updateResults`. -/
def resultsStep (selected : Selection) (acc : List ProcessMatchState × Bool)
    (process : Process) : List ProcessMatchState × Bool :=
  let baseMatch := isCompatible process.compatibility selected
  let variantStates := buildVariantStates process selected
  let anyMatch :=
    if baseMatch || variantStates.any (fun variant => variant.isMatch) then true else acc.2
  (acc.1 ++ [{ process := process, baseMatch := baseMatch, variantStates := variantStates }],
   anyMatch)

/-- Source `updateResults`, without the document; reading `state.config.processes` on
the initial `null` configuration throws. -/
def updateResults (st : AppState) : Except String ResultsView :=
  match st.config with
  | none => .error "TypeError"
  | some config =>
    let selectionsActive := decide (st.selected.keys.length > 0)
    let result := config.processes.foldl (resultsStep st.selected) ([], false)
    .ok { cards := result.1, anyMatch := result.2,
          showEmptyState := selectionsActive && !result.2 }

/-- Source `onOptionClick`, for the button of `(categoryId, optionId)`; `disabled` tells
whether the button carries the class `disabled`. -/
def onOptionClick (st : AppState) (categoryId optionId : Str) (disabled : Bool) : AppState :=
  let isSelected := decide (st.selected.get? categoryId = some optionId)
  if !isSelected && disabled then st
  else if isSelected then { st with selected := st.selected.erase categoryId }
  else { st with selected := st.selected.set categoryId optionId }

/-- Source `handleReset`. -/
def handleReset (st : AppState) : AppState :=
  { st with selected := JSObject.empty }

/-! ## Strings of the host language -/

/-- The characters removed by `String.prototype.trim`: white space and line terminators. -/
def isJSWhitespace (c : Char) : Bool :=
  let n := c.toNat
  n = 0x09 || n = 0x0A || n = 0x0B || n = 0x0C || n = 0x0D || n = 0x20 || n = 0xA0 ||
  n = 0x1680 || (0x2000 ≤ n && n ≤ 0x200A) || n = 0x2028 || n = 0x2029 || n = 0x202F ||
  n = 0x205F || n = 0x3000 || n = 0xFEFF

/-- Dropping the trailing characters that satisfy `p`. -/
def dropTrailing (p : Char → Bool) : Str → Str
  | [] => []
  | c :: cs =>
    match dropTrailing p cs with
    | [] => if p c then [] else [c]
    | r => c :: r

/-- `String.prototype.trim`. -/
def jsTrim (s : Str) : Str := dropTrailing isJSWhitespace (s.dropWhile isJSWhitespace)

/-- Lower-casing of one character.  Only the letters `A` to `Z` are mapped; the
literals `truthyMark` compares against have no other upper-case preimage. -/
def lowerChar (c : Char) : Char :=
  if 65 ≤ c.toNat ∧ c.toNat ≤ 90 then Char.ofNat (c.toNat + 32) else c

/-- `String.prototype.toLowerCase`, on the letters `A` to `Z`. -/
def jsToLowerCase (s : Str) : Str := s.map lowerChar

/-- `String.prototype.split` with a one-character separator. -/
def jsSplit (sep : Char) : Str → List Str
  | [] => [[]]
  | c :: cs =>
    if c = sep then [] :: jsSplit sep cs
    else
      match jsSplit sep cs with
      | [] => [[c]]
      | piece :: pieces => (c :: piece) :: pieces

/-- The expression `a || b` for `a` a string or `undefined`: `b` when `a` is
`undefined` or the empty string. -/
def jsOr (a : Option Str) (b : Str) : Str :=
  match a with
  | some s => if s = [] then b else s
  | none => b

/-! ## CSV tokenizer -/

/-- The double-quote character. -/
def quoteChar : Char := Char.ofNat 34

/-- The line-feed character. -/
def lineFeed : Char := Char.ofNat 10

/-- The carriage-return character. -/
def carriageReturn : Char := Char.ofNat 13

/-- The byte-order mark U+FEFF. -/
def byteOrderMark : Char := Char.ofNat 0xFEFF

/-- The local variables of `parseCSV`. -/
structure CsvState where
  rows : List (List Str)
  row : List Str
  field : Str
  inQuotes : Bool
  deriving DecidableEq

/-- Local `pushField` of `parseCSV`. -/
def CsvState.pushField (s : CsvState) : CsvState :=
  { s with row := s.row ++ [s.field], field := [] }

/-- Local `pushRow` of `parseCSV`. -/
def CsvState.pushRow (s : CsvState) : CsvState :=
  { s with rows := s.rows ++ [s.row], row := [] }

/-- One iteration of the character loop of `parseCSV`. -/
def csvStep (s : CsvState) (ch : Char) : CsvState :=
  if s.inQuotes then
    if ch = quoteChar then { s with inQuotes := false }
    else { s with field := s.field ++ [ch] }
  else
    if ch = quoteChar then { s with inQuotes := true }
    else if ch = ',' then s.pushField
    else if ch = lineFeed then s.pushField.pushRow
    else if ch = carriageReturn then s
    else { s with field := s.field ++ [ch] }

/-- The replacement `text.replace(/^\uFEFF/, '')`: one leading byte-order mark is removed. -/
def stripBOM : Str → Str
  | [] => []
  | c :: cs => if c = byteOrderMark then cs else c :: cs

/-- The final `while` loop of `parseCSV`: trailing rows whose fields are all empty are popped. -/
def dropTrailingEmptyRows : List (List Str) → List (List Str)
  | [] => []
  | r :: rs =>
    match dropTrailingEmptyRows rs with
    | [] => if r.all (fun c => decide (c = [])) then [] else [r]
    | kept => r :: kept

/-- Source `parseCSV`. -/
def parseCSV (text : Str) : List (List Str) :=
  let s := (stripBOM text).foldl csvStep { rows := [], row := [], field := [], inQuotes := false }
  let s := if s.field.length > 0 ∨ s.row.length > 0 then s.pushField.pushRow else s
  dropTrailingEmptyRows s.rows

/-! ## Configuration builder -/

/-- Source `truthyMark`. -/
def truthyMark (v : Option Str) : Bool :=
  let s := jsToLowerCase (jsTrim (jsOr v []))
  s = ['x'] || s = ['1'] || s = ['y', 'e', 's'] || s = ['t', 'r', 'u', 'e']

/-- The record returned by `parseHeaderCell`. -/
structure HeaderCell where
  id : Str
  label : Str
  deriving DecidableEq, Repr

/-- Source `parseHeaderCell`; `cell` is `none` when the column lies beyond the header row. -/
def parseHeaderCell (cell : Option Str) : HeaderCell :=
  let parts := jsSplit '|' (jsOr cell [])
  let id := parts[0]?
  let label := parts[1]?
  { id := jsTrim (jsOr id []), label := jsTrim (jsOr label (jsOr id [])) }

/-- The number of identity columns. -/
def ID_COLS : Nat := 5

/-- The column indices visited by `for (let c = ID_COLS; c < bound; c++)`. -/
def columnRange (bound : Nat) : List Nat := List.range' ID_COLS (bound - ID_COLS)

/-- Applying `f` to the element at index `i`, when there is one. -/
def modifyAt {α : Type} (f : α → α) : Nat → List α → List α
  | _, [] => []
  | 0, x :: xs => f x :: xs
  | i + 1, x :: xs => x :: modifyAt f i xs

/-- The three collections filled by the header loop of `buildConfigFromCSV`. -/
structure CategoryAcc where
  categories : List Category
  categoryIndex : List (Str × Nat)
  optionsByCategory : List (Str × List Str)
  deriving DecidableEq

/-- One iteration of the header loop of `buildConfigFromCSV` (column `c`). -/
def categoryStep (header1 header2 : List Str) (acc : CategoryAcc) (c : Nat) : CategoryAcc :=
  let cat := parseHeaderCell header1[c]?
  let opt := parseHeaderCell header2[c]?
  if cat.id = [] ∨ opt.id = [] then acc
  else
    let acc :=
      if (Assoc.find cat.id acc.categoryIndex).isNone then
        { categoryIndex := Assoc.put cat.id acc.categories.length acc.categoryIndex,
          categories := acc.categories ++ [{ id := cat.id, label := cat.label, options := [] }],
          optionsByCategory := Assoc.put cat.id [] acc.optionsByCategory }
      else acc
    match Assoc.find cat.id acc.categoryIndex, Assoc.find cat.id acc.optionsByCategory with
    | some catIdx, some seen =>
      if opt.id ∈ seen then acc
      else
        { acc with
          categories := modifyAt (fun category =>
            { category with options := category.options ++ [{ id := opt.id, label := opt.label }] })
            catIdx acc.categories,
          optionsByCategory := Assoc.put cat.id (seen ++ [opt.id]) acc.optionsByCategory }
    | _, _ => acc

/-- The header loop of `buildConfigFromCSV`. -/
def buildCategories (header1 header2 : List Str) : List Category :=
  ((columnRange header1.length).foldl (categoryStep header1 header2)
    { categories := [], categoryIndex := [], optionsByCategory := [] }).categories

/-- The property name `__proto__`. -/
def protoKey : Str := ['_', '_', 'p', 'r', 'o', 't', 'o', '_', '_']

/-- The `compatibility` object of a data row while it is filled: its own properties,
and the array that has replaced its prototype once the id `__proto__` was marked
(`none` while the prototype is still `Object.prototype`). -/
structure RowObject where
  own : CompatMap
  proto : Option (List Str)
  deriving DecidableEq

/-- The read `compatibility[k]`, as far as `Array.isArray` can tell: `__proto__` reads
the prototype, any other name reads the own property (no inherited property of
`Object.prototype` or of an array of strings is an array). -/
def RowObject.read (o : RowObject) (k : Str) : Option CompatValue :=
  if k = protoKey then o.proto.map CompatValue.arr else o.own.get? k

/-- The array under `k` becoming `values`, by `compatibility[k] = []` or by `push`:
for `__proto__` the array is the prototype and no own property is created. -/
def RowObject.write (o : RowObject) (k : Str) (values : List Str) : RowObject :=
  if k = protoKey then { o with proto := some values }
  else { o with own := o.own.set k (.arr values) }

/-- One iteration of the inner column loop over a data row. -/
def compatibilityStep (header1 header2 row : List Str) (compatibility : RowObject) (c : Nat) :
    RowObject :=
  let cat := parseHeaderCell header1[c]?
  let opt := parseHeaderCell header2[c]?
  if cat.id = [] ∨ opt.id = [] then compatibility
  else if truthyMark row[c]? then
    let compatibility :=
      match compatibility.read cat.id with
      | some (.arr _) => compatibility
      | _ => compatibility.write cat.id []
    match compatibility.read cat.id with
    | some (.arr allowed) => compatibility.write cat.id (allowed ++ [opt.id])
    | _ => compatibility
  else compatibility

/-- The `compatibility` object built for one data row, as its own properties: what
`Object.entries` and `Object.keys` later read from it. -/
def rowCompatibility (header1 header2 row : List Str) : CompatMap :=
  ((columnRange (max header1.length row.length)).foldl (compatibilityStep header1 header2 row)
    { own := JSObject.empty, proto := none }).own

/-- Applying `f` to the value stored under key `k`, when there is one. -/
def modifyKey {α : Type} (k : Str) (f : α → α) : List (Str × α) → List (Str × α)
  | [] => []
  | (k', v) :: rest => if k' = k then (k', f v) :: rest else (k', v) :: modifyKey k f rest

/-- One iteration of the data-row loop of `buildConfigFromCSV`, on `processMap`. -/
def processRowStep (header1 header2 : List Str) (processMap : List (Str × Process))
    (row : List Str) : List (Str × Process) :=
  if row.length = 0 then processMap
  else
    let process_id := jsTrim (jsOr row[0]? [])
    let process_label := jsTrim (jsOr row[1]? [])
    let variant_id := jsTrim (jsOr row[2]? [])
    let variant_label := jsTrim (jsOr row[3]? [])
    let summary := jsTrim (jsOr row[4]? [])
    if process_id = [] ∨ variant_id = [] then processMap
    else
      let processMap :=
        if (Assoc.find process_id processMap).isNone then
          Assoc.put process_id
            { id := process_id, shortLabel := process_id,
              label := jsOr (some process_label) process_id,
              compatibility := JSObject.empty, variants := [] } processMap
        else processMap
      let compatibility := rowCompatibility header1 header2 row
      modifyKey process_id (fun p =>
        { p with variants := p.variants ++ [{
            id := variant_id, shortLabel := variant_id,
            label := jsOr (some variant_label) variant_id,
            summary := summary, compatibility := some compatibility,
            refinements := none, compatibilityOverrides := none }] }) processMap

/-- The data-row loop of `buildConfigFromCSV` followed by `Array.from(processMap.values())`. -/
def buildProcesses (header1 header2 : List Str) (dataRows : List (List Str)) : List Process :=
  (dataRows.foldl (processRowStep header1 header2) []).map Prod.snd

/-- Source `buildConfigFromCSV`; the thrown `Error` is the `error` case. -/
def buildConfigFromCSV (text : Str) : Except String Configuration :=
  let rows := parseCSV text
  if rows.length < 3 then .error "CSV requires two header rows + data"
  else
    let header1 := rows[0]?.getD []
    let header2 := rows[1]?.getD []
    .ok { categories := buildCategories header1 header2,
          processes := buildProcesses header1 header2 (rows.drop 2) }

/-! ## Specification-side definitions -/

/-- The base layer of the three-layer merge: the refinements when they have at
least one key, the variant's own `compatibility` otherwise. -/
def baseLayer (variant : Variant) : CompatMap :=
  if (variant.refinements.getD JSObject.empty).keys ≠ [] then
    variant.refinements.getD JSObject.empty
  else variant.compatibility.getD JSObject.empty

/-- The array read from a property, empty when the property holds no array. -/
def arrOf : Option CompatValue → List Str
  | some (.arr values) => values
  | _ => []

/-- Column `c` marks an option of category `k` for this row: the first header
decodes to `k`, the second to a non-empty option id, and the row cell is truthy. -/
def isMarked (header1 header2 row : List Str) (k : Str) (c : Nat) : Bool :=
  decide ((parseHeaderCell header1[c]?).id = k) &&
  decide ((parseHeaderCell header2[c]?).id ≠ []) && truthyMark row[c]?

/-- The columns that mark an option of category `k` for this row, in column order. -/
def markedColumns (header1 header2 row : List Str) (k : Str) : List Nat :=
  (List.range (max header1.length row.length)).filter
    (fun c => decide (ID_COLS ≤ c) && isMarked header1 header2 row k c)

/-- The trimmed process id of a data row. -/
def rowProcessId (row : List Str) : Str := jsTrim (jsOr row[0]? [])

/-- The trimmed variant id of a data row. -/
def rowVariantId (row : List Str) : Str := jsTrim (jsOr row[2]? [])

/-- A data row is kept when its trimmed process id and variant id are both non-empty. -/
def rowKept (row : List Str) : Bool :=
  decide (rowProcessId row ≠ []) && decide (rowVariantId row ≠ [])

/-- The label a row gives to a process it creates: the trimmed second cell, or the id. -/
def rowProcessLabel (row : List Str) : Str :=
  jsOr (some (jsTrim (jsOr row[1]? []))) (rowProcessId row)

/-- The variant contributed by a kept data row. -/
def variantOfRow (header1 header2 row : List Str) : Variant :=
  { id := rowVariantId row, shortLabel := rowVariantId row,
    label := jsOr (some (jsTrim (jsOr row[3]? []))) (rowVariantId row),
    summary := jsTrim (jsOr row[4]? []),
    compatibility := some (rowCompatibility header1 header2 row),
    refinements := none, compatibilityOverrides := none }

/-- The distinct elements of a list in order of first appearance. -/
def firstOccurrences (l : List Str) : List Str :=
  l.foldl (fun seen x => if x ∈ seen then seen else seen ++ [x]) []

/-- The process that the kept rows `kept` define for process id `pid`: labelled by
the first row carrying `pid`, with one variant per row carrying `pid`, in row order. -/
def processOfGroup (header1 header2 : List Str) (kept : List (List Str)) (pid : Str) : Process :=
  { id := pid, shortLabel := pid,
    label := match kept.find? (fun r => decide (rowProcessId r = pid)) with
      | some r => rowProcessLabel r
      | none => pid,
    compatibility := JSObject.empty,
    variants := (kept.filter (fun r => decide (rowProcessId r = pid))).map
      (variantOfRow header1 header2) }

/-- Grouping of kept rows by process id, groups in order of first appearance. -/
def groupRows (header1 header2 : List Str) (kept : List (List Str)) : List Process :=
  (firstOccurrences (kept.map rowProcessId)).map (processOfGroup header1 header2 kept)

/-- The accumulator of the data-row loop after the rows `rows`: one keyed process per group. -/
def keyedGroups (header1 header2 : List Str) (kept : List (List Str)) : List (Str × Process) :=
  (firstOccurrences (kept.map rowProcessId)).map
    (fun pid => (pid, processOfGroup header1 header2 kept pid))

/-- The three-line input of the concrete scenario. -/
def scenarioText : Str :=
  ",,,,,sz|Size,sz|Size,clr|Color".toList ++ [lineFeed] ++
  ",,,,,s|Small,l|Large,r|Red".toList ++ [lineFeed] ++
  "P1,Proc One,V1,Variant One,,x,,x".toList

/-- The three-line input whose only category column carries the id `__proto__`:
`,,,,,__proto__|Proto`, `,,,,,s|Small` and `P1,Proc One,V1,Variant One,,x`. -/
def protoCategoryText : Str :=
  ",,,,,__proto__|Proto".toList ++ [lineFeed] ++ ",,,,,s|Small".toList ++ [lineFeed] ++
  "P1,Proc One,V1,Variant One,,x".toList

/-- A five-line input: two empty header rows, then the data rows `P1,,V1`, `P1` and `P2`. -/
def skippedRowsText : Str :=
  ",".toList ++ [lineFeed] ++ ",".toList ++ [lineFeed] ++ "P1,,V1".toList ++ [lineFeed] ++
  "P1".toList ++ [lineFeed] ++ "P2".toList

/-- A sample state: the selection `sz:l` over one variant entry allowing `sz:[s]`, `clr:[r]`. -/
def sampleState : AppState :=
  { config := none,
    selected := JSObject.fromEntries [(['s', 'z'], ['l'])],
    processEntries := [{
      type := .variant, id := ['V', '1'], label := ['V', '1'], shortLabel := ['V', '1'],
      compatibility :=
        JSObject.fromEntries [(['s', 'z'], .arr [['s']]), (['c', 'l', 'r'], .arr [['r']])],
      parentId := some ['P', '1'], parentLabel := some ['P', '1'] }] }

/-- The entry of kind `process` that the flattening emits for a process. -/
def processEntry (proc : Process) : Entry :=
  { type := .process, id := proc.id, label := proc.label, shortLabel := proc.shortLabel,
    compatibility := proc.compatibility, parentId := none, parentLabel := none }

/-- The entry of kind `variant` that the flattening emits for a variant of `proc`. -/
def variantEntry (proc : Process) (variant : Variant) : Entry :=
  { type := .variant, id := variant.id, label := variant.label,
    shortLabel := variant.shortLabel,
    compatibility := resolveVariantCompatibility proc variant,
    parentId := some proc.id, parentLabel := some proc.label }

/-- The entries of one process: its own entry, then one entry per variant. -/
def entriesOfProcess (proc : Process) : List Entry :=
  processEntry proc :: proc.variants.map (variantEntry proc)

/-- A process is reachable under a selection: its base match holds or a variant matches. -/
def processReachable (process : Process) (selections : Selection) : Bool :=
  isCompatible process.compatibility selections ||
    (buildVariantStates process selections).any (fun variant => variant.isMatch)

/-- The state once `init` has loaded `config`, under the selection `selected`. -/
def loadedState (config : Configuration) (selected : Selection) : AppState :=
  { config := some config, selected := selected,
    processEntries := buildProcessEntries config.processes }

/-- The selection toggle that `onOptionClick` performs on an enabled button. -/
def toggle (S : Selection) (c o : Str) : Selection :=
  if S.get? c = some o then S.erase c else S.set c o

/-- No carriage return of the text is read inside a quoted field; `q` tells whether
the text starts inside quotes. -/
def noQuotedCR : Bool → Str → Bool
  | _, [] => true
  | q, ch :: rest =>
    if ch = quoteChar then noQuotedCR (!q) rest
    else if q && decide (ch = carriageReturn) then false
    else noQuotedCR q rest

/-- The content of a field with every quote character doubled. -/
def doubleQuotes (content : Str) : Str :=
  content.flatMap (fun ch => if ch = quoteChar then [quoteChar, quoteChar] else [ch])

/-- No field held by the tokenizer state contains a carriage return. -/
def CsvState.noCR (s : CsvState) : Prop :=
  (∀ row, row ∈ s.rows → ∀ f, f ∈ row → carriageReturn ∉ f) ∧
  (∀ f, f ∈ s.row → carriageReturn ∉ f) ∧ carriageReturn ∉ s.field

/-- The text of a field wrapped in quotes. -/
def quoteField (f : Str) : Str := quoteChar :: f ++ [quoteChar]

/-- The text of a row: its quoted fields joined with commas. -/
def encodeRow : List Str → Str
  | [] => []
  | [f] => quoteField f
  | f :: g :: rest => quoteField f ++ ',' :: encodeRow (g :: rest)

/-- The text of a list of rows: the row texts joined with line feeds. -/
def encodeRows : List (List Str) → Str
  | [] => []
  | [r] => encodeRow r
  | r :: r' :: rest => encodeRow r ++ lineFeed :: encodeRows (r' :: rest)

/-- The id decoded from the header cell of column `c`. -/
def headerId (header : List Str) (c : Nat) : Str := (parseHeaderCell header[c]?).id

/-- The label decoded from the header cell of column `c`. -/
def headerLabel (header : List Str) (c : Nat) : Str := (parseHeaderCell header[c]?).label

/-- Column `c` is used: both header cells decode to a non-empty id. -/
def columnUsed (header1 header2 : List Str) (c : Nat) : Bool :=
  decide (headerId header1 c ≠ []) && decide (headerId header2 c ≠ [])

/-- The used columns of index at least `ID_COLS` of the first header row, in column order. -/
def usedColumns (header1 header2 : List Str) : List Nat :=
  (List.range header1.length).filter
    (fun c => decide (ID_COLS ≤ c) && columnUsed header1 header2 c)

/-- The label carried by the first of the columns `cols` whose id is `x`. -/
def labelOfFirst (header : List Str) (cols : List Nat) (x : Str) : Str :=
  match cols.find? (fun c => decide (headerId header c = x)) with
  | some c => headerLabel header c
  | none => x

/-- The options that the columns `cols` give to their category: the distinct option
ids in order of first appearance, each with the label of its first sighting. -/
def optionsOfColumns (header2 : List Str) (cols : List Nat) : List OptionDef :=
  (firstOccurrences (cols.map (headerId header2))).map
    (fun o => { id := o, label := labelOfFirst header2 cols o })

/-- The category of id `k` defined by the used columns `cols`. -/
def categoryOfColumns (header1 header2 : List Str) (cols : List Nat) (k : Str) : Category :=
  { id := k, label := labelOfFirst header1 cols k,
    options := optionsOfColumns header2 (cols.filter (fun c => decide (headerId header1 c = k))) }

/-- The categories defined by the used columns `cols`: the distinct category ids in
order of first appearance. -/
def categoriesOfColumns (header1 header2 : List Str) (cols : List Nat) : List Category :=
  (firstOccurrences (cols.map (headerId header1))).map (categoryOfColumns header1 header2 cols)

/-- The loop invariant of the header loop after the used columns `U`. -/
structure CategoryInv (header1 header2 : List Str) (U : List Nat) (acc : CategoryAcc) : Prop where
  cats : acc.categories = categoriesOfColumns header1 header2 U
  index_some : ∀ k i, Assoc.find k acc.categoryIndex = some i →
    (firstOccurrences (U.map (headerId header1)))[i]? = some k
  index_none : ∀ k, Assoc.find k acc.categoryIndex = none ↔ k ∉ U.map (headerId header1)
  seen : ∀ k, k ∈ U.map (headerId header1) →
    Assoc.find k acc.optionsByCategory =
      some (firstOccurrences
        ((U.filter (fun c => decide (headerId header1 c = k))).map (headerId header2)))

/-- The text of a header cell that follows its first `|` separator. -/
def afterFirstSeparator (cell : Str) : Str :=
  (cell.dropWhile (fun ch => decide (ch ≠ '|'))).drop 1

/-- The text of a header cell before its first `|` separator. -/
def beforeFirstSeparator (cell : Str) : Str :=
  cell.takeWhile (fun ch => decide (ch ≠ '|'))

/-! ## Properties of the constraint resolver -/

theorem cloneValue_eq (v : CompatValue) : cloneValue v = v := by
  cases v <;> rfl

/-- The characterisation of `isCompatible` by property reads of the selection. -/
theorem isCompatible_eq_true_iff (requirements : CompatMap) (selections : Selection) :
    isCompatible requirements selections = true ↔
      ∀ categoryId optionId, selections.get? categoryId = some optionId →
        ∃ allowed, requirements.get? categoryId = some (.arr allowed) ∧ optionId ∈ allowed := by
  unfold isCompatible
  rw [List.all_eq_true]
  constructor
  · intro h categoryId optionId hsel
    have hm := h (categoryId, optionId) (selections.mem_of_get? _ _ hsel)
    simp only at hm
    split at hm
    · rename_i allowed heq
      exact ⟨allowed, heq, of_decide_eq_true hm⟩
    · exact absurd hm (by simp)
  · rintro h ⟨categoryId, optionId⟩ hmem
    obtain ⟨allowed, heq, hin⟩ := h categoryId optionId (selections.get?_of_mem _ _ hmem)
    simp only [heq]
    exact decide_eq_true hin

/-- Two selections with the same property reads are accepted by the same maps. -/
theorem isCompatible_congr_selection (requirements : CompatMap) (s t : Selection)
    (h : ∀ k, s.get? k = t.get? k) :
    isCompatible requirements s = isCompatible requirements t := by
  rw [Bool.eq_iff_iff, isCompatible_eq_true_iff, isCompatible_eq_true_iff]
  simp only [h]

/-- Two maps with the same reads at the selected categories accept the selection alike. -/
theorem isCompatible_congr_requirements (r r' : CompatMap) (s : Selection)
    (h : ∀ k, k ∈ s.keys → r'.get? k = r.get? k) :
    isCompatible r' s = isCompatible r s := by
  rw [Bool.eq_iff_iff, isCompatible_eq_true_iff, isCompatible_eq_true_iff]
  have hk : ∀ c o, s.get? c = some o → c ∈ s.keys := by
    intro c o hc
    by_contra hn
    rw [← JSObject.get?_eq_none_iff] at hn
    rw [hn] at hc
    exact Option.noConfusion hc
  constructor
  · intro hh c o hc
    rw [← h c (hk c o hc)]
    exact hh c o hc
  · intro hh c o hc
    rw [h c (hk c o hc)]
    exact hh c o hc

/-- Claim C1: `isCompatible(requirements, selections)` is true exactly when every
`(categoryId, optionId)` pair of the selection finds under `categoryId` an array
containing `optionId`; a selected category absent from the map makes the result
false, and keys the selection does not name have no influence. -/
theorem isCompatible_spec (requirements : CompatMap) (selections : Selection) :
    (isCompatible requirements selections = true ↔
      ∀ categoryId optionId, (categoryId, optionId) ∈ selections.entries →
        ∃ allowed, requirements.get? categoryId = some (.arr allowed) ∧ optionId ∈ allowed) ∧
    (∀ categoryId optionId, (categoryId, optionId) ∈ selections.entries →
      requirements.hasKey categoryId = false →
        isCompatible requirements selections = false) ∧
    (∀ requirements' : CompatMap,
      (∀ k, k ∈ selections.keys → requirements'.get? k = requirements.get? k) →
        isCompatible requirements' selections = isCompatible requirements selections) := by
  refine ⟨?_, ?_, ?_⟩
  · rw [isCompatible_eq_true_iff]
    constructor
    · intro h c o hm
      exact h c o (selections.get?_of_mem _ _ hm)
    · intro h c o hs
      exact h c o (selections.mem_of_get? _ _ hs)
  · intro c o hm hk
    rw [Bool.eq_false_iff]
    intro ht
    obtain ⟨allowed, heq, _⟩ :=
      (isCompatible_eq_true_iff requirements selections).mp ht c o (selections.get?_of_mem _ _ hm)
    simp [JSObject.hasKey, heq] at hk
  · intro r' h
    exact isCompatible_congr_requirements requirements r' selections h

/-- Claim C2: `optionIsSupported(c, o)` is true exactly when some flattened entry is
compatible with the selection that maps `c` to `o` and reads like the current
selection everywhere else; the state is handed back unchanged. -/
theorem optionIsSupported_spec (st : AppState) (c o : Str) (hypothetical : Selection)
    (hc : hypothetical.get? c = some o)
    (hrest : ∀ k, k ≠ c → hypothetical.get? k = st.selected.get? k) :
    ((optionIsSupported st c o).1 = true ↔
      ∃ entry, entry ∈ st.processEntries ∧
        isCompatible entry.compatibility hypothetical = true) ∧
    (optionIsSupported st c o).2 = st := by
  refine ⟨?_, rfl⟩
  have hsame : ∀ k, (st.selected.set c o).get? k = hypothetical.get? k := by
    intro k
    by_cases hk : k = c
    · subst hk
      rw [JSObject.get?_set_self, hc]
    · rw [JSObject.get?_set_ne _ _ _ _ hk, hrest k hk]
  simp only [optionIsSupported, List.any_eq_true]
  constructor
  · rintro ⟨entry, hmem, hcompat⟩
    exact ⟨entry, hmem, by rwa [← isCompatible_congr_selection _ _ _ hsame]⟩
  · rintro ⟨entry, hmem, hcompat⟩
    exact ⟨entry, hmem, by rwa [isCompatible_congr_selection _ _ _ hsame]⟩

/-! ## Properties of the merge -/

/-- Reading key `k` after writing the entries of `l` one by one over `init`. -/
theorem get?_foldl_set (l : List (Str × CompatValue)) (hl : (Assoc.keysOf l).Nodup)
    (init : CompatMap) (k : Str) :
    (l.foldl (fun merged kv => merged.set kv.1 (cloneValue kv.2)) init).get? k =
      match Assoc.find k l with
      | some v => some v
      | none => init.get? k := by
  induction l generalizing init with
  | nil => simp [Assoc.find]
  | cons hd tl ih =>
    obtain ⟨k', v'⟩ := hd
    simp only [Assoc.keysOf, List.map_cons, List.nodup_cons] at hl
    rw [List.foldl_cons, ih hl.2]
    by_cases h : k' = k
    · subst h
      have hnone : Assoc.find k' tl = none := (Assoc.find_eq_none_iff k' tl).mpr hl.1
      simp only [hnone, Assoc.find, if_true, JSObject.get?_set_self, cloneValue_eq]
    · have h' : k ≠ k' := fun e => h e.symm
      simp only [Assoc.find, h, if_false, JSObject.get?_set_ne _ _ _ _ h']

theorem cloneCompatibility_get? (source : CompatMap) (k : Str) :
    (cloneCompatibility source).get? k = source.get? k := by
  unfold cloneCompatibility
  rw [get?_foldl_set source.entries source.nodup]
  show (match source.get? k with | some v => some v | none => none) = source.get? k
  cases source.get? k <;> rfl

theorem mergeCompatibility_get? (base overrides : CompatMap) (k : Str) :
    (mergeCompatibility base overrides).get? k =
      match overrides.get? k with
      | some v => some v
      | none => base.get? k := by
  unfold mergeCompatibility
  rw [get?_foldl_set overrides.entries overrides.nodup, cloneCompatibility_get?]
  rfl

theorem mem_keys_iff_get?_ne_none {V : Type} (o : JSObject V) (k : Str) :
    k ∈ o.keys ↔ o.get? k ≠ none := by
  rw [Ne, JSObject.get?_eq_none_iff, not_not]

/-- Claim C4: `mergeCompatibility(base, overrides)[k]` is `overrides[k]`, whole and
without union, when `overrides` has key `k`, and `base[k]` unchanged when it has
not; the keys of the result are the keys of `base` together with those of
`overrides`. -/
theorem mergeCompatibility_spec (base overrides : CompatMap) (k : Str) :
    (∀ v, overrides.get? k = some v → (mergeCompatibility base overrides).get? k = some v) ∧
    (overrides.hasKey k = false →
      (mergeCompatibility base overrides).get? k = base.get? k) ∧
    (k ∈ (mergeCompatibility base overrides).keys ↔ k ∈ base.keys ∨ k ∈ overrides.keys) := by
  refine ⟨?_, ?_, ?_⟩
  · intro v hv
    rw [mergeCompatibility_get?, hv]
  · intro hk
    have : overrides.get? k = none := by
      simpa [JSObject.hasKey] using hk
    rw [mergeCompatibility_get?, this]
  · rw [mem_keys_iff_get?_ne_none, mem_keys_iff_get?_ne_none, mem_keys_iff_get?_ne_none,
      mergeCompatibility_get?]
    cases overrides.get? k <;> simp

theorem resolveVariantCompatibility_eq (process : Process) (variant : Variant) :
    resolveVariantCompatibility process variant =
      mergeCompatibility (mergeCompatibility process.compatibility (baseLayer variant))
        (variant.compatibilityOverrides.getD JSObject.empty) := by
  unfold resolveVariantCompatibility baseLayer
  simp only [gt_iff_lt, List.length_pos, ne_eq]

/-- Claim C3: the effective compatibility of a variant under category `k` is the
entry of `compatibilityOverrides` when it has key `k`, otherwise the entry of the
base layer when it has key `k`, otherwise the entry of the process (absent when the
process has none).  With process `A:[1]`, refinements `A:[2]` and overrides `A:[3]`
the result for `A` is `[3]`; with empty refinements the variant's own
`compatibility` is the base layer. -/
theorem resolveVariantCompatibility_spec (process : Process) (variant : Variant) (k : Str) :
    (resolveVariantCompatibility process variant).get? k =
      (match (variant.compatibilityOverrides.getD JSObject.empty).get? k with
       | some v => some v
       | none =>
         match (baseLayer variant).get? k with
         | some v => some v
         | none => process.compatibility.get? k) ∧
    (∀ (fallback : Option CompatMap) (vid pid : Str),
      (resolveVariantCompatibility
        { id := pid, label := pid, shortLabel := pid,
          compatibility := JSObject.fromEntries [(['A'], .arr [['1']])], variants := [] }
        { id := vid, label := vid, shortLabel := vid, summary := [],
          compatibility := fallback,
          refinements := some (JSObject.fromEntries [(['A'], .arr [['2']])]),
          compatibilityOverrides := some (JSObject.fromEntries [(['A'], .arr [['3']])]) }).get?
        ['A'] = some (.arr [['3']])) ∧
    ((variant.refinements.getD JSObject.empty).keys = [] →
      baseLayer variant = variant.compatibility.getD JSObject.empty) ∧
    ((variant.refinements.getD JSObject.empty).keys ≠ [] →
      baseLayer variant = variant.refinements.getD JSObject.empty) := by
  refine ⟨?_, ?_, ?_, ?_⟩
  · rw [resolveVariantCompatibility_eq, mergeCompatibility_get?, mergeCompatibility_get?]
  · intro fallback vid pid
    rw [resolveVariantCompatibility_eq, mergeCompatibility_get?]
    rfl
  · intro h
    simp [baseLayer, h]
  · intro h
    simp [baseLayer, h]

/-- Counterexample to claim C10 as stated: the empty map has no entry for `A`, the
selection `B:x` does not include `A`, and yet `isCompatible` is false. -/
theorem permissive_default_counterexample :
    (JSObject.empty : CompatMap).get? ['A'] = none ∧
    (JSObject.fromEntries [(['B'], ['x'])] : Selection).get? ['A'] = none ∧
    isCompatible JSObject.empty (JSObject.fromEntries [(['B'], ['x'])]) = false := by
  decide

/-- Claim C10, amended: when the map has no entry for `K` and the selection does not
include `K`, the missing entry never causes a rejection: `isCompatible` is true as
soon as every category the selection does include has an array containing the
selected option, and giving `K` any entry leaves the result unchanged. -/
theorem permissive_default_amended (m : CompatMap) (K : Str) (S : Selection)
    (hm : m.get? K = none) (hS : S.get? K = none) :
    ((∀ c o, S.get? c = some o →
        ∃ allowed, m.get? c = some (.arr allowed) ∧ o ∈ allowed) →
      isCompatible m S = true) ∧
    (∀ v, isCompatible (m.set K v) S = isCompatible m S) := by
  refine ⟨fun h => (isCompatible_eq_true_iff m S).mpr h, ?_⟩
  intro v
  apply isCompatible_congr_requirements
  intro k hk
  have hne : k ≠ K := by
    rintro rfl
    exact (JSObject.get?_eq_none_iff S k).mp hS hk
  exact JSObject.get?_set_ne m K k v hne

/-! ## Properties of the row compatibility loop -/

theorem Assoc.put_put {V : Type} (k : Str) (a b : V) (l : List (Str × V)) :
    Assoc.put k b (Assoc.put k a l) = Assoc.put k b l := by
  induction l with
  | nil => simp [Assoc.put]
  | cons hd tl ih =>
    obtain ⟨k', v'⟩ := hd
    by_cases h : k' = k
    · subst h; simp only [Assoc.put, if_true]
    · simp only [Assoc.put, h, if_false, ih]

theorem JSObject.set_set {V : Type} (o : JSObject V) (k : Str) (a b : V) :
    (o.set k a).set k b = o.set k b :=
  JSObject.ext_entries (Assoc.put_put k a b o.entries)

theorem own_compatibilityStep (header1 header2 row : List Str) (acc : RowObject) (c : Nat) :
    (compatibilityStep header1 header2 row acc c).own =
      if (parseHeaderCell header1[c]?).id ≠ [] ∧ (parseHeaderCell header2[c]?).id ≠ [] ∧
          truthyMark row[c]? = true ∧ (parseHeaderCell header1[c]?).id ≠ protoKey then
        acc.own.set (parseHeaderCell header1[c]?).id
          (.arr (arrOf (acc.own.get? (parseHeaderCell header1[c]?).id) ++
            [(parseHeaderCell header2[c]?).id]))
      else acc.own := by
  unfold compatibilityStep
  by_cases h1 : (parseHeaderCell header1[c]?).id = []
  · simp [h1]
  by_cases h2 : (parseHeaderCell header2[c]?).id = []
  · simp [h2]
  by_cases h3 : truthyMark row[c]? = true
  · by_cases h4 : (parseHeaderCell header1[c]?).id = protoKey
    · have hp : ¬ protoKey = [] := by decide
      rw [h4] at h1
      simp only [h2, h3, h4, hp, or_self, if_false, if_true, ne_eq, not_false_eq_true,
        not_true_eq_false, and_false, and_true, RowObject.read, RowObject.write]
      obtain ⟨own, proto⟩ := acc
      cases proto <;> rfl
    · simp only [h1, h2, h3, h4, or_self, if_false, if_true, ne_eq, not_false_eq_true,
        and_self, RowObject.read, RowObject.write]
      cases hget : acc.own.get? (parseHeaderCell header1[c]?).id with
      | none =>
        simp only [JSObject.get?_set_self, JSObject.set_set, arrOf, List.nil_append]
      | some v =>
        cases v with
        | arr xs => simp only [hget, arrOf]
        | other raw =>
          simp only [JSObject.get?_set_self, JSObject.set_set, arrOf, List.nil_append]
  · simp [h1, h2, h3]

theorem get?_foldl_compatibilityStep (header1 header2 row : List Str) (k : Str) (hk : k ≠ [])
    (hp : k ≠ protoKey) (cs : List Nat) (acc : RowObject) :
    (cs.foldl (compatibilityStep header1 header2 row) acc).own.get? k =
      if cs.filter (isMarked header1 header2 row k) = [] then acc.own.get? k
      else some (.arr (arrOf (acc.own.get? k) ++
        (cs.filter (isMarked header1 header2 row k)).map
          (fun c => (parseHeaderCell header2[c]?).id))) := by
  induction cs generalizing acc with
  | nil => simp
  | cons c cs ih =>
    rw [List.foldl_cons, ih, own_compatibilityStep]
    by_cases hm : isMarked header1 header2 row k c = true
    · have hm' := hm
      simp only [isMarked, Bool.and_eq_true, decide_eq_true_eq] at hm'
      obtain ⟨⟨e1, e2⟩, e3⟩ := hm'
      have hcond : (parseHeaderCell header1[c]?).id ≠ [] ∧
          (parseHeaderCell header2[c]?).id ≠ [] ∧ truthyMark row[c]? = true ∧
          (parseHeaderCell header1[c]?).id ≠ protoKey :=
        ⟨by rw [e1]; exact hk, e2, e3, by rw [e1]; exact hp⟩
      rw [if_pos hcond, e1, JSObject.get?_set_self, List.filter_cons_of_pos hm]
      simp only [arrOf, List.map_cons, reduceCtorEq, if_false, List.append_assoc,
        List.singleton_append]
      split
      · rename_i hnil; simp [hnil]
      · rfl
    · rw [List.filter_cons_of_neg hm]
      have hsame : (if (parseHeaderCell header1[c]?).id ≠ [] ∧
          (parseHeaderCell header2[c]?).id ≠ [] ∧ truthyMark row[c]? = true ∧
          (parseHeaderCell header1[c]?).id ≠ protoKey then
        acc.own.set (parseHeaderCell header1[c]?).id
          (.arr (arrOf (acc.own.get? (parseHeaderCell header1[c]?).id) ++
            [(parseHeaderCell header2[c]?).id]))
        else acc.own).get? k = acc.own.get? k := by
        split
        · rename_i hcond
          apply JSObject.get?_set_ne
          intro e
          apply hm
          simp only [isMarked, Bool.and_eq_true, decide_eq_true_eq]
          exact ⟨⟨e.symm, hcond.2.1⟩, hcond.2.2.1⟩
        · rfl
      rw [hsame]

/-- The two names that the column loop never stores as own keys: the empty id, whose
columns are skipped, and `__proto__`, whose array is the prototype. -/
theorem get?_unstored_foldl_compatibilityStep (header1 header2 row : List Str) (k : Str)
    (hk : k = [] ∨ k = protoKey) (cs : List Nat) (acc : RowObject) :
    (cs.foldl (compatibilityStep header1 header2 row) acc).own.get? k = acc.own.get? k := by
  induction cs generalizing acc with
  | nil => rfl
  | cons c cs ih =>
    rw [List.foldl_cons, ih, own_compatibilityStep]
    split
    · rename_i hcond
      apply JSObject.get?_set_ne
      rintro rfl
      rcases hk with h | h
      · exact hcond.1 h
      · exact hcond.2.2.2 h
    · rfl

/-! ## Properties of the data-row loop -/

theorem processRowStep_eq (header1 header2 : List Str) (pm : List (Str × Process))
    (row : List Str) :
    processRowStep header1 header2 pm row =
      if rowKept row = true then
        modifyKey (rowProcessId row)
          (fun p => { p with variants := p.variants ++ [variantOfRow header1 header2 row] })
          (if (Assoc.find (rowProcessId row) pm).isNone then
            Assoc.put (rowProcessId row)
              { id := rowProcessId row, shortLabel := rowProcessId row,
                label := rowProcessLabel row,
                compatibility := JSObject.empty, variants := [] } pm
           else pm)
      else pm := by
  unfold processRowStep
  by_cases hlen : row.length = 0
  · have : row = [] := List.length_eq_zero.mp hlen
    subst this
    simp [rowKept, rowProcessId, jsOr, jsTrim, dropTrailing]
  · by_cases hk : rowKept row = true
    · have hk' := hk
      simp only [rowKept, Bool.and_eq_true, decide_eq_true_eq] at hk'
      have h1 : ¬ (jsTrim (jsOr row[0]? []) = [] ∨ jsTrim (jsOr row[2]? []) = []) := by
        rintro (h | h)
        · exact hk'.1 h
        · exact hk'.2 h
      simp only [hlen, if_false, h1, hk, if_true]
      rfl
    · have hk' : jsTrim (jsOr row[0]? []) = [] ∨ jsTrim (jsOr row[2]? []) = [] := by
        by_contra hn
        apply hk
        simp only [rowKept, Bool.and_eq_true, decide_eq_true_eq]
        exact ⟨fun h => hn (Or.inl h), fun h => hn (Or.inr h)⟩
      simp only [hlen, if_false, hk', if_true, hk]
      rfl

theorem firstOccurrences_append_singleton (l : List Str) (x : Str) :
    firstOccurrences (l ++ [x]) =
      if x ∈ firstOccurrences l then firstOccurrences l else firstOccurrences l ++ [x] := by
  simp [firstOccurrences, List.foldl_append]

theorem mem_firstOccurrences (l : List Str) (x : Str) : x ∈ firstOccurrences l ↔ x ∈ l := by
  induction l using List.reverseRecOn with
  | nil => simp [firstOccurrences]
  | append_singleton l y ih =>
    rw [firstOccurrences_append_singleton]
    split
    · rename_i h
      constructor
      · intro hx; exact List.mem_append_left _ (ih.mp hx)
      · intro hx
        rcases List.mem_append.mp hx with hx | hx
        · exact ih.mpr hx
        · rw [List.mem_singleton.mp hx]; exact h
    · simp [ih]

theorem nodup_firstOccurrences (l : List Str) : (firstOccurrences l).Nodup := by
  induction l using List.reverseRecOn with
  | nil => simp [firstOccurrences]
  | append_singleton l y ih =>
    rw [firstOccurrences_append_singleton]
    split
    · exact ih
    · rename_i h
      exact List.Nodup.append ih (List.nodup_singleton y) (by simpa using h)

theorem modifyKey_map_nodup (keys : List Str) (hn : keys.Nodup) (f : Str → Process)
    (g : Process → Process) (k : Str) :
    modifyKey k g (keys.map (fun x => (x, f x))) =
      keys.map (fun x => (x, if x = k then g (f x) else f x)) := by
  induction keys with
  | nil => rfl
  | cons a as ih =>
    rw [List.nodup_cons] at hn
    by_cases h : a = k
    · subst h
      simp only [List.map_cons, modifyKey, if_true, List.cons.injEq, true_and]
      apply List.map_congr_left
      intro x hx
      have : x ≠ a := fun e => hn.1 (e ▸ hx)
      simp [this]
    · simp only [List.map_cons, modifyKey, h, if_false, ih hn.2]

theorem modifyKey_append_new (l : List (Str × Process)) (k : Str) (p : Process)
    (g : Process → Process) (hk : k ∉ Assoc.keysOf l) :
    modifyKey k g (l ++ [(k, p)]) = l ++ [(k, g p)] := by
  induction l with
  | nil => simp [modifyKey]
  | cons hd tl ih =>
    obtain ⟨a, b⟩ := hd
    simp only [Assoc.keysOf, List.map_cons, List.mem_cons, not_or] at hk
    have h : ¬ a = k := fun e => hk.1 e.symm
    simp only [List.cons_append, modifyKey, h, if_false]
    exact congrArg _ (ih hk.2)

theorem put_new {V : Type} (l : List (Str × V)) (k : Str) (v : V) (hk : k ∉ Assoc.keysOf l) :
    Assoc.put k v l = l ++ [(k, v)] := by
  induction l with
  | nil => rfl
  | cons hd tl ih =>
    obtain ⟨a, b⟩ := hd
    simp only [Assoc.keysOf, List.map_cons, List.mem_cons, not_or] at hk
    have h : ¬ a = k := fun e => hk.1 e.symm
    simp only [Assoc.put, h, if_false, List.cons_append]
    exact congrArg _ (ih hk.2)

theorem keysOf_keyedGroups (header1 header2 : List Str) (kept : List (List Str)) :
    Assoc.keysOf (keyedGroups header1 header2 kept) = firstOccurrences (kept.map rowProcessId) := by
  simp [keyedGroups, Assoc.keysOf, Function.comp_def]

theorem processOfGroup_append_old (header1 header2 : List Str) (kept : List (List Str))
    (r : List Str) (x : Str) (hx : x ∈ kept.map rowProcessId) :
    processOfGroup header1 header2 (kept ++ [r]) x =
      if x = rowProcessId r then
        { processOfGroup header1 header2 kept x with
          variants := (processOfGroup header1 header2 kept x).variants ++
            [variantOfRow header1 header2 r] }
      else processOfGroup header1 header2 kept x := by
  obtain ⟨row, hrow, hpid⟩ := List.mem_map.mp hx
  have hfind : ∃ r0, kept.find? (fun r => decide (rowProcessId r = x)) = some r0 := by
    cases hf : kept.find? (fun r => decide (rowProcessId r = x)) with
    | none =>
      rw [List.find?_eq_none] at hf
      exact absurd (by simpa using hpid) (hf row hrow)
    | some r0 => exact ⟨r0, rfl⟩
  obtain ⟨r0, hr0⟩ := hfind
  unfold processOfGroup
  rw [List.find?_append, hr0, List.filter_append, List.map_append]
  by_cases h : x = rowProcessId r
  · subst h
    simp
  · have h' : ¬ rowProcessId r = x := fun e => h e.symm
    simp [h, h']

theorem processOfGroup_append_new (header1 header2 : List Str) (kept : List (List Str))
    (r : List Str) (hx : rowProcessId r ∉ kept.map rowProcessId) :
    processOfGroup header1 header2 (kept ++ [r]) (rowProcessId r) =
      { id := rowProcessId r, shortLabel := rowProcessId r, label := rowProcessLabel r,
        compatibility := JSObject.empty, variants := [variantOfRow header1 header2 r] } := by
  have hnone : ∀ row ∈ kept, ¬ rowProcessId row = rowProcessId r := by
    intro row hrow e
    exact hx (List.mem_map.mpr ⟨row, hrow, e⟩)
  have hfind : kept.find? (fun r' => decide (rowProcessId r' = rowProcessId r)) = none := by
    rw [List.find?_eq_none]
    intro row hrow
    simpa using hnone row hrow
  have hfilter : kept.filter (fun r' => decide (rowProcessId r' = rowProcessId r)) = [] := by
    rw [List.filter_eq_nil_iff]
    intro row hrow
    simpa using hnone row hrow
  unfold processOfGroup
  rw [List.find?_append, hfind, List.filter_append, hfilter]
  simp

theorem foldl_processRowStep (header1 header2 : List Str) (rows : List (List Str)) :
    rows.foldl (processRowStep header1 header2) [] =
      keyedGroups header1 header2 (rows.filter rowKept) := by
  induction rows using List.reverseRecOn with
  | nil => rfl
  | append_singleton rows r ih =>
    rw [List.foldl_append, List.foldl_cons, List.foldl_nil, ih, processRowStep_eq,
      List.filter_append]
    by_cases hk : rowKept r = true
    · rw [if_pos hk, List.filter_cons_of_pos hk, List.filter_nil]
      generalize rows.filter rowKept = kept
      by_cases hin : rowProcessId r ∈ kept.map rowProcessId
      · have hsome : (Assoc.find (rowProcessId r) (keyedGroups header1 header2 kept)).isNone
            = false := by
          rw [Bool.eq_false_iff, Ne, Option.isNone_iff_eq_none, Assoc.find_eq_none_iff,
            keysOf_keyedGroups, mem_firstOccurrences]
          exact fun h => h hin
        rw [hsome]
        simp only [Bool.false_eq_true, if_false]
        unfold keyedGroups
        rw [modifyKey_map_nodup _ (nodup_firstOccurrences _), List.map_append, List.map_cons,
          List.map_nil, firstOccurrences_append_singleton,
          if_pos ((mem_firstOccurrences _ _).mpr hin)]
        apply List.map_congr_left
        intro x hx
        rw [processOfGroup_append_old _ _ _ _ _ ((mem_firstOccurrences _ _).mp hx)]
      · have hnotkey : rowProcessId r ∉ Assoc.keysOf (keyedGroups header1 header2 kept) := by
          rw [keysOf_keyedGroups, mem_firstOccurrences]
          exact hin
        have hnone : (Assoc.find (rowProcessId r) (keyedGroups header1 header2 kept)).isNone
            = true := by
          rw [Option.isNone_iff_eq_none, Assoc.find_eq_none_iff]
          exact hnotkey
        rw [hnone, if_pos rfl, put_new _ _ _ hnotkey, modifyKey_append_new _ _ _ _ hnotkey]
        unfold keyedGroups
        rw [List.map_append, List.map_cons, List.map_nil, firstOccurrences_append_singleton,
          if_neg (fun h => hin ((mem_firstOccurrences _ _).mp h)), List.map_append,
          List.map_cons, List.map_nil, processOfGroup_append_new _ _ _ _ hin]
        congr 1
        apply List.map_congr_left
        intro x hx
        have hx' := (mem_firstOccurrences _ _).mp hx
        rw [processOfGroup_append_old _ _ _ _ _ hx', if_neg (fun e : x = rowProcessId r => hin (e ▸ hx'))]
    · rw [if_neg hk, List.filter_cons_of_neg hk, List.filter_nil, List.append_nil]

theorem buildProcesses_eq_groupRows (header1 header2 : List Str) (rows : List (List Str)) :
    buildProcesses header1 header2 rows = groupRows header1 header2 (rows.filter rowKept) := by
  unfold buildProcesses groupRows
  rw [foldl_processRowStep]
  simp [keyedGroups, Function.comp_def]

/-! ## Properties of the configuration builder -/

theorem columnRange_eq_filter (n : Nat) :
    columnRange n = (List.range n).filter (fun c => decide (ID_COLS ≤ c)) := by
  unfold columnRange ID_COLS
  induction n with
  | zero => simp
  | succ n ih =>
    rw [List.range_succ, List.filter_append, ← ih]
    by_cases h : 5 ≤ n
    · have : n + 1 - 5 = (n - 5) + 1 := by omega
      rw [this, List.range'_concat]
      simp [h]
    · have h1 : n + 1 - 5 = 0 := by omega
      have h2 : n - 5 = 0 := by omega
      simp [h1, h2, h]

theorem filter_columnRange (header1 header2 row : List Str) (k : Str) :
    (columnRange (max header1.length row.length)).filter (isMarked header1 header2 row k) =
      markedColumns header1 header2 row k := by
  rw [columnRange_eq_filter, List.filter_filter]
  unfold markedColumns
  apply List.filter_congr
  intro c _
  rw [Bool.and_comm]

theorem rowCompatibility_get? (header1 header2 row : List Str) (k : Str) (hk : k ≠ [])
    (hp : k ≠ protoKey) :
    (rowCompatibility header1 header2 row).get? k =
      if markedColumns header1 header2 row k = [] then none
      else some (.arr ((markedColumns header1 header2 row k).map
        (fun c => (parseHeaderCell header2[c]?).id))) := by
  unfold rowCompatibility
  rw [get?_foldl_compatibilityStep _ _ _ _ hk hp, filter_columnRange]
  rfl

theorem rowCompatibility_get?_unstored (header1 header2 row : List Str) (k : Str)
    (hk : k = [] ∨ k = protoKey) : (rowCompatibility header1 header2 row).get? k = none := by
  unfold rowCompatibility
  rw [get?_unstored_foldl_compatibilityStep _ _ _ _ hk]
  rfl

theorem truthyMark_lt_length (row : List Str) (c : Nat) (h : truthyMark row[c]? = true) :
    c < row.length := by
  by_contra hn
  rw [List.getElem?_eq_none (by omega)] at h
  exact absurd h (by decide)

theorem markedColumns_ne_nil_iff (header1 header2 row : List Str) (k : Str) :
    markedColumns header1 header2 row k ≠ [] ↔
      ∃ c, ID_COLS ≤ c ∧ (parseHeaderCell header1[c]?).id = k ∧
        (parseHeaderCell header2[c]?).id ≠ [] ∧ truthyMark row[c]? = true := by
  unfold markedColumns
  rw [Ne, List.filter_eq_nil_iff]
  simp only [List.mem_range, Bool.and_eq_true, decide_eq_true_eq, isMarked, not_forall,
    Classical.not_not]
  constructor
  · rintro ⟨c, _, h1, ⟨h2, h3⟩, h4⟩
    exact ⟨c, h1, h2, h3, h4⟩
  · rintro ⟨c, h1, h2, h3, h4⟩
    have := truthyMark_lt_length row c h4
    exact ⟨c, by omega, h1, ⟨h2, h3⟩, h4⟩

theorem mem_variants_groupRows (header1 header2 : List Str) (kept : List (List Str))
    (row : List Str) (hrow : row ∈ kept) :
    ∃ p, p ∈ groupRows header1 header2 kept ∧ p.id = rowProcessId row ∧
      variantOfRow header1 header2 row ∈ p.variants := by
  refine ⟨processOfGroup header1 header2 kept (rowProcessId row), ?_, rfl, ?_⟩
  · unfold groupRows
    apply List.mem_map_of_mem
    rw [mem_firstOccurrences]
    exact List.mem_map_of_mem _ hrow
  · unfold processOfGroup
    apply List.mem_map_of_mem
    rw [List.mem_filter]
    exact ⟨hrow, by simp⟩

/-- The row map at an ordinary category id.  For a data row and a category id `k` that
is neither empty nor `__proto__`, the map has key `k` exactly when some column
`c >= 5` has a first header decoding to `k`, a second header decoding to a non-empty
option id and a truthy row cell; the list under `k` is then the option ids of those
columns in column order; no key maps to an empty list; a cell is truthy exactly
when its trimmed lower-cased content is `x`, `1`, `yes` or `true`; and a kept row
becomes a variant carrying this map. -/
theorem rowCompatibility_ordinary_key (header1 header2 row : List Str) (k : Str)
    (hk : k ≠ []) (hp : k ≠ protoKey) :
    ((rowCompatibility header1 header2 row).hasKey k = true ↔
      ∃ c, ID_COLS ≤ c ∧ (parseHeaderCell header1[c]?).id = k ∧
        (parseHeaderCell header2[c]?).id ≠ [] ∧ truthyMark row[c]? = true) ∧
    ((rowCompatibility header1 header2 row).hasKey k = true →
      (rowCompatibility header1 header2 row).get? k =
        some (.arr ((markedColumns header1 header2 row k).map
          (fun c => (parseHeaderCell header2[c]?).id)))) ∧
    (∀ j, (rowCompatibility header1 header2 row).get? j ≠ some (.arr [])) ∧
    (∀ v, truthyMark v = true ↔
      jsToLowerCase (jsTrim (jsOr v [])) ∈
        [['x'], ['1'], ['y', 'e', 's'], ['t', 'r', 'u', 'e']]) ∧
    (∀ rows, row ∈ rows → rowKept row = true →
      ∃ p, p ∈ buildProcesses header1 header2 rows ∧ p.id = rowProcessId row ∧
        ∃ v, v ∈ p.variants ∧ v.id = rowVariantId row ∧
          v.compatibility = some (rowCompatibility header1 header2 row)) := by
  refine ⟨?_, ?_, ?_, ?_, ?_⟩
  · rw [← markedColumns_ne_nil_iff]
    unfold JSObject.hasKey
    rw [rowCompatibility_get? _ _ _ _ hk hp]
    split <;> simp_all
  · unfold JSObject.hasKey
    rw [rowCompatibility_get? _ _ _ _ hk hp]
    split
    · intro h; simp at h
    · intro _; rfl
  · intro j
    by_cases hj : j = [] ∨ j = protoKey
    · rw [rowCompatibility_get?_unstored _ _ _ _ hj]
      exact fun e => Option.noConfusion e
    · rw [rowCompatibility_get? _ _ _ _ (fun e => hj (Or.inl e)) (fun e => hj (Or.inr e))]
      split
      · exact fun e => Option.noConfusion e
      · rename_i hne
        intro e
        apply hne
        have := Option.some.inj e
        injection this with h'
        exact List.map_eq_nil_iff.mp h'
  · intro v
    simp [truthyMark, or_assoc]
  · intro rows hrow hkept
    obtain ⟨p, hp', hid, hv⟩ := mem_variants_groupRows header1 header2 (rows.filter rowKept) row
      (List.mem_filter.mpr ⟨hrow, hkept⟩)
    rw [← buildProcesses_eq_groupRows] at hp'
    exact ⟨p, hp', hid, variantOfRow header1 header2 row, hv, rfl, rfl⟩

/-- Claim C5: `buildConfigFromCSV(text)` throws exactly when `parseCSV(text)` has fewer
than three rows; with three rows or more it returns a configuration, whatever the
rows and cells contain. -/
theorem buildConfigFromCSV_fails_iff (text : Str) :
    ((∃ msg, buildConfigFromCSV text = .error msg) ↔ (parseCSV text).length < 3) ∧
    ((∃ config, buildConfigFromCSV text = .ok config) ↔ 3 ≤ (parseCSV text).length) := by
  unfold buildConfigFromCSV
  by_cases h : (parseCSV text).length < 3
  · simp [h]
  · simp [h]
    omega

theorem toFinset_firstOccurrences (l : List Str) : (firstOccurrences l).toFinset = l.toFinset := by
  ext x
  simp [mem_firstOccurrences]

theorem length_groupRows (header1 header2 : List Str) (kept : List (List Str)) :
    (groupRows header1 header2 kept).length = (kept.map rowProcessId).toFinset.card := by
  unfold groupRows
  rw [List.length_map, ← toFinset_firstOccurrences,
    List.toFinset_card_of_nodup (nodup_firstOccurrences _)]

theorem map_id_groupRows (header1 header2 : List Str) (kept : List (List Str)) :
    (groupRows header1 header2 kept).map (fun p => p.id) =
      firstOccurrences (kept.map rowProcessId) := by
  unfold groupRows
  rw [List.map_map]
  exact List.map_id _

theorem variants_of_mem_groupRows (header1 header2 : List Str) (kept : List (List Str))
    (p : Process) (hp : p ∈ groupRows header1 header2 kept) :
    p.variants = (kept.filter (fun r => decide (rowProcessId r = p.id))).map
      (variantOfRow header1 header2) := by
  unfold groupRows at hp
  obtain ⟨pid, _, rfl⟩ := List.mem_map.mp hp
  rfl

theorem buildConfigFromCSV_ok (text : Str) (h3 : 3 ≤ (parseCSV text).length) :
    buildConfigFromCSV text = .ok
      { categories := buildCategories ((parseCSV text)[0]?.getD []) ((parseCSV text)[1]?.getD []),
        processes := groupRows ((parseCSV text)[0]?.getD []) ((parseCSV text)[1]?.getD [])
          (((parseCSV text).drop 2).filter rowKept) } := by
  unfold buildConfigFromCSV
  have : ¬ (parseCSV text).length < 3 := by omega
  simp only [this, if_false, buildProcesses_eq_groupRows]

/-- Counterexample to claim C7 as stated: the input has five rows, its data rows
carry the two distinct process ids `P1` and `P2`, two of them carry `P1`, and yet
the result has a single process, with a single variant. -/
theorem csv_grouping_counterexample :
    3 ≤ (parseCSV skippedRowsText).length ∧
    ∃ config, buildConfigFromCSV skippedRowsText = .ok config ∧
      config.processes.length = 1 ∧
      ((((parseCSV skippedRowsText).drop 2).map rowProcessId).filter
        (fun pid => decide (pid ≠ []))).toFinset.card = 2 ∧
      ∃ p, p ∈ config.processes ∧ p.variants.length = 1 ∧
        ((parseCSV skippedRowsText).drop 2).countP
          (fun r => decide (rowProcessId r = p.id)) = 2 := by
  refine ⟨by decide, _, buildConfigFromCSV_ok skippedRowsText (by decide), by decide, by decide,
    _, List.mem_cons_self _ _, by decide, by decide⟩

/-- Claim C7, amended: for every input with at least three rows, the number of
processes of the result is the number of distinct trimmed process ids among the data
rows whose trimmed process id and variant id are both non-empty, the processes have
pairwise distinct ids, and the variant count of each process is the number of those
rows sharing its id. -/
theorem csv_grouping_amended (text : Str) (h3 : 3 ≤ (parseCSV text).length) :
    ∃ config, buildConfigFromCSV text = .ok config ∧
      config.processes.length =
        ((((parseCSV text).drop 2).filter rowKept).map rowProcessId).toFinset.card ∧
      (config.processes.map (fun p => p.id)).Nodup ∧
      ∀ p, p ∈ config.processes →
        p.variants.length =
          (((parseCSV text).drop 2).filter rowKept).countP
            (fun r => decide (rowProcessId r = p.id)) := by
  refine ⟨_, buildConfigFromCSV_ok text h3, length_groupRows _ _ _, ?_, ?_⟩
  · rw [map_id_groupRows]
    exact nodup_firstOccurrences _
  · intro p hp
    rw [variants_of_mem_groupRows _ _ _ p hp, List.length_map, List.countP_eq_length_filter]

theorem csv_grouping_amended_witness :
    3 ≤ (parseCSV skippedRowsText).length ∧
    ∃ config, buildConfigFromCSV skippedRowsText = .ok config ∧
      config.processes.length =
        ((((parseCSV skippedRowsText).drop 2).filter rowKept).map rowProcessId).toFinset.card ∧
      (config.processes.map (fun p => p.id)).Nodup ∧
      ∀ p, p ∈ config.processes →
        p.variants.length =
          (((parseCSV skippedRowsText).drop 2).filter rowKept).countP
            (fun r => decide (rowProcessId r = p.id)) :=
  ⟨by decide, csv_grouping_amended skippedRowsText (by decide)⟩

theorem buildProcesses_skip (header1 header2 : List Str) (pre post : List (List Str))
    (r : List Str) (hr : rowKept r = false) :
    buildProcesses header1 header2 (pre ++ r :: post) =
      buildProcesses header1 header2 (pre ++ post) := by
  rw [buildProcesses_eq_groupRows, buildProcesses_eq_groupRows, List.filter_append,
    List.filter_append, List.filter_cons_of_neg (by simp [hr])]

/-- Claim C8: for every input with at least three rows, the processes of the result
are the groups, in order of first appearance of their process id, of the data rows
whose trimmed process id and variant id are both non-empty; each such row gives one
variant to its process, in row order; a row with an empty variant id or process id
gives nothing, and the rows around it are processed as if it were not there. -/
theorem buildConfigFromCSV_groups_rows (text : Str) (h3 : 3 ≤ (parseCSV text).length) :
    ∃ config, buildConfigFromCSV text = .ok config ∧
      config.processes =
        groupRows ((parseCSV text)[0]?.getD []) ((parseCSV text)[1]?.getD [])
          (((parseCSV text).drop 2).filter rowKept) ∧
      config.processes.map (fun p => p.id) =
        firstOccurrences ((((parseCSV text).drop 2).filter rowKept).map rowProcessId) ∧
      (∀ p, p ∈ config.processes →
        p.variants =
          ((((parseCSV text).drop 2).filter rowKept).filter
            (fun r => decide (rowProcessId r = p.id))).map
            (variantOfRow ((parseCSV text)[0]?.getD []) ((parseCSV text)[1]?.getD []))) ∧
      (∀ r, rowKept r = true ↔
        jsTrim (jsOr r[0]? []) ≠ [] ∧ jsTrim (jsOr r[2]? []) ≠ []) ∧
      (∀ (header1 header2 : List Str) (pre post : List (List Str)) (r : List Str),
        rowKept r = false →
          buildProcesses header1 header2 (pre ++ r :: post) =
            buildProcesses header1 header2 (pre ++ post)) := by
  refine ⟨_, buildConfigFromCSV_ok text h3, rfl, map_id_groupRows _ _ _, ?_, ?_, ?_⟩
  · intro p hp
    exact variants_of_mem_groupRows _ _ _ p hp
  · intro r
    simp [rowKept, rowProcessId, rowVariantId]
  · intro header1 header2 pre post r hr
    exact buildProcesses_skip header1 header2 pre post r hr

theorem buildConfigFromCSV_groups_rows_witness :
    3 ≤ (parseCSV skippedRowsText).length ∧
    ∃ config, buildConfigFromCSV skippedRowsText = .ok config ∧
      config.processes.map (fun p => p.id) = [['P', '1']] ∧
      config.processes.map (fun p => p.variants.map (fun v => v.id)) = [[['V', '1']]] := by
  refine ⟨by decide, ?_⟩
  obtain ⟨config, hok, hproc, _⟩ := buildConfigFromCSV_groups_rows skippedRowsText (by decide)
  refine ⟨config, hok, ?_, ?_⟩
  · rw [hproc]; decide
  · rw [hproc]; decide

/-- Claim C9: the three-line scenario yields exactly one process `P1` with exactly one
variant `V1` whose effective compatibility is `sz:[s], clr:[r]`; that map accepts the
selection `sz:s` and rejects `sz:l`; over the flattened entries `optionIsSupported(clr, r)`
is true under the selection `sz:s` and false under `sz:l`. -/
theorem concrete_scenario_holds :
    ∃ config process variant,
      buildConfigFromCSV scenarioText = .ok config ∧
      config.processes = [process] ∧ process.id = ['P', '1'] ∧
      process.variants = [variant] ∧ variant.id = ['V', '1'] ∧
      resolveVariantCompatibility process variant =
        JSObject.fromEntries [(['s', 'z'], .arr [['s']]), (['c', 'l', 'r'], .arr [['r']])] ∧
      isCompatible (resolveVariantCompatibility process variant)
        (JSObject.fromEntries [(['s', 'z'], ['s'])]) = true ∧
      isCompatible (resolveVariantCompatibility process variant)
        (JSObject.fromEntries [(['s', 'z'], ['l'])]) = false ∧
      (optionIsSupported
        { config := some config, selected := JSObject.fromEntries [(['s', 'z'], ['s'])],
          processEntries := buildProcessEntries config.processes } ['c', 'l', 'r'] ['r']).1
        = true ∧
      (optionIsSupported
        { config := some config, selected := JSObject.fromEntries [(['s', 'z'], ['l'])],
          processEntries := buildProcessEntries config.processes } ['c', 'l', 'r'] ['r']).1
        = false := by
  refine ⟨_,
    processOfGroup ((parseCSV scenarioText)[0]?.getD []) ((parseCSV scenarioText)[1]?.getD [])
      (((parseCSV scenarioText).drop 2).filter rowKept) ['P', '1'],
    variantOfRow ((parseCSV scenarioText)[0]?.getD []) ((parseCSV scenarioText)[1]?.getD [])
      ((parseCSV scenarioText).getD 2 []),
    buildConfigFromCSV_ok scenarioText (by decide), ?_, ?_, ?_, ?_, ?_, ?_, ?_, ?_, ?_⟩
  all_goals decide

/-- Claim C6, at the failing input.  With the category id `__proto__` in column 5, the
header loop creates the category `__proto__` with the option `s`, and the data row
has a truthy cell in that column; yet the map of the row's variant has no key
`__proto__` (it is empty), so `optionIsSupported` refuses the only option of the
category.  No row map ever has the key `__proto__`; for every other non-empty
category id the map has the key exactly when the id has a marked column, with the
option ids of the marked columns in column order. -/
theorem proto_category_dropped :
    (∃ config process variant,
      buildConfigFromCSV protoCategoryText = .ok config ∧
      config.categories =
        [{ id := protoKey, label := ['P', 'r', 'o', 't', 'o'],
           options := [{ id := ['s'], label := ['S', 'm', 'a', 'l', 'l'] }] }] ∧
      config.processes = [process] ∧ process.variants = [variant] ∧
      (∃ c, ID_COLS ≤ c ∧
        (parseHeaderCell ((parseCSV protoCategoryText).getD 0 [])[c]?).id = protoKey ∧
        (parseHeaderCell ((parseCSV protoCategoryText).getD 1 [])[c]?).id ≠ [] ∧
        truthyMark ((parseCSV protoCategoryText).getD 2 [])[c]? = true) ∧
      variant.compatibility = some JSObject.empty ∧
      (resolveVariantCompatibility process variant).hasKey protoKey = false ∧
      (optionIsSupported (loadedState config JSObject.empty) protoKey ['s']).1 = false) ∧
    (∀ header1 header2 row : List Str,
      (rowCompatibility header1 header2 row).hasKey protoKey = false) ∧
    (∀ (header1 header2 row : List Str) (k : Str), k ≠ [] → k ≠ protoKey →
      ((rowCompatibility header1 header2 row).hasKey k = true ↔
        ∃ c, ID_COLS ≤ c ∧ (parseHeaderCell header1[c]?).id = k ∧
          (parseHeaderCell header2[c]?).id ≠ [] ∧ truthyMark row[c]? = true) ∧
      ((rowCompatibility header1 header2 row).hasKey k = true →
        (rowCompatibility header1 header2 row).get? k =
          some (.arr ((markedColumns header1 header2 row k).map
            (fun c => (parseHeaderCell header2[c]?).id))))) := by
  refine ⟨⟨_,
    processOfGroup ((parseCSV protoCategoryText)[0]?.getD [])
      ((parseCSV protoCategoryText)[1]?.getD [])
      (((parseCSV protoCategoryText).drop 2).filter rowKept) ['P', '1'],
    variantOfRow ((parseCSV protoCategoryText)[0]?.getD [])
      ((parseCSV protoCategoryText)[1]?.getD []) ((parseCSV protoCategoryText).getD 2 []),
    buildConfigFromCSV_ok protoCategoryText (by decide), by decide, by decide, by decide,
    ⟨5, by decide, by decide, by decide, by decide⟩, by decide, by decide, by decide⟩, ?_, ?_⟩
  · intro header1 header2 row
    unfold JSObject.hasKey
    rw [rowCompatibility_get?_unstored _ _ _ _ (Or.inr rfl)]
    rfl
  · intro header1 header2 row k hk hp
    exact ⟨(rowCompatibility_ordinary_key header1 header2 row k hk hp).1,
      (rowCompatibility_ordinary_key header1 header2 row k hk hp).2.1⟩

/-! ## Properties of the flattened index, the results view and the selection -/

theorem entries_foldl_set (l : List (Str × CompatValue)) (acc : CompatMap) :
    (l.foldl (fun merged kv => merged.set kv.1 (cloneValue kv.2)) acc).entries =
      l.foldl (fun es kv => Assoc.put kv.1 kv.2 es) acc.entries := by
  induction l generalizing acc with
  | nil => rfl
  | cons hd tl ih =>
    rw [List.foldl_cons, List.foldl_cons, ih, cloneValue_eq]
    rfl

theorem foldl_put_append (l es : List (Str × CompatValue))
    (hl : (Assoc.keysOf (es ++ l)).Nodup) :
    l.foldl (fun es kv => Assoc.put kv.1 kv.2 es) es = es ++ l := by
  induction l generalizing es with
  | nil => simp
  | cons hd tl ih =>
    obtain ⟨k, v⟩ := hd
    have hk : k ∉ Assoc.keysOf es := by
      intro hmem
      simp only [Assoc.keysOf, List.map_append, List.map_cons] at hl
      have := (List.nodup_append.mp hl).2.2
      exact this hmem (List.mem_cons_self _ _)
    rw [List.foldl_cons, put_new es k v hk, ih]
    · simp
    · simpa using hl

theorem cloneCompatibility_eq (source : CompatMap) : cloneCompatibility source = source := by
  apply JSObject.ext_entries
  unfold cloneCompatibility
  rw [entries_foldl_set, foldl_put_append]
  · rfl
  · simpa [JSObject.empty] using source.nodup

theorem mergeCompatibility_empty_right (base : CompatMap) :
    mergeCompatibility base JSObject.empty = base := by
  unfold mergeCompatibility
  simp only [JSObject.empty, List.foldl_nil]
  exact cloneCompatibility_eq base

theorem mergeCompatibility_empty_left (overrides : CompatMap) :
    mergeCompatibility JSObject.empty overrides = overrides := by
  apply JSObject.ext_entries
  unfold mergeCompatibility
  rw [entries_foldl_set, cloneCompatibility_eq, foldl_put_append]
  · rfl
  · simpa [JSObject.empty] using overrides.nodup

theorem foldl_push_variants (proc : Process) (variants : List Variant) (entries : List Entry) :
    variants.foldl (fun entries variant =>
      let compatibility := resolveVariantCompatibility proc variant
      entries ++ [{
        type := .variant, id := variant.id, label := variant.label,
        shortLabel := variant.shortLabel, compatibility := compatibility,
        parentId := some proc.id, parentLabel := some proc.label }]) entries =
      entries ++ variants.map (variantEntry proc) := by
  induction variants generalizing entries with
  | nil => simp
  | cons v vs ih =>
    rw [List.foldl_cons, ih]
    simp [variantEntry]

theorem buildProcessEntries_eq (processes : List Process) :
    buildProcessEntries processes = processes.flatMap entriesOfProcess := by
  unfold buildProcessEntries
  induction processes using List.reverseRecOn with
  | nil => rfl
  | append_singleton ps p ih =>
    rw [List.foldl_append, ih, List.foldl_cons, List.foldl_nil, foldl_push_variants,
      cloneCompatibility_eq, List.flatMap_append]
    simp [entriesOfProcess, processEntry]

/-- Claim C14: `buildProcessEntries` returns, in process order, for each process one
entry of type `process` carrying the process's own compatibility and null parent
fields, immediately followed by one entry of type `variant` per variant in
declaration order carrying `resolveVariantCompatibility(process, variant)` and the
owning process's id and label; the number of entries is the number of processes plus
the total number of variants. -/
theorem buildProcessEntries_spec (processes : List Process) :
    buildProcessEntries processes =
      processes.flatMap (fun proc =>
        ({ type := .process, id := proc.id, label := proc.label,
           shortLabel := proc.shortLabel, compatibility := proc.compatibility,
           parentId := none, parentLabel := none } : Entry) ::
        proc.variants.map (fun variant =>
          ({ type := .variant, id := variant.id, label := variant.label,
             shortLabel := variant.shortLabel,
             compatibility := resolveVariantCompatibility proc variant,
             parentId := some proc.id, parentLabel := some proc.label } : Entry))) ∧
    (buildProcessEntries processes).length =
      processes.length + (processes.map (fun proc => proc.variants.length)).sum := by
  refine ⟨buildProcessEntries_eq processes, ?_⟩
  rw [buildProcessEntries_eq]
  induction processes with
  | nil => rfl
  | cons p ps ih =>
    rw [List.flatMap_cons, List.length_append, ih]
    simp [entriesOfProcess]
    omega

/-- Claim C11: reachability is monotone.  When the selection `extended` keeps every
choice of the current selection (it only adds categories), an option of category `c`
that is supported under `extended` is supported under the current selection: adding
categories can keep or shrink the set of supported options, never enlarge it. -/
theorem optionIsSupported_antitone (st : AppState) (extended : Selection) (c o : Str)
    (hext : ∀ k v, st.selected.get? k = some v → extended.get? k = some v)
    (hsup : (optionIsSupported { st with selected := extended } c o).1 = true) :
    (optionIsSupported st c o).1 = true := by
  simp only [optionIsSupported, List.any_eq_true] at hsup ⊢
  obtain ⟨entry, hmem, hcompat⟩ := hsup
  refine ⟨entry, hmem, ?_⟩
  rw [isCompatible_eq_true_iff] at hcompat ⊢
  intro k v hk
  apply hcompat k v
  by_cases hkc : k = c
  · subst hkc
    rw [JSObject.get?_set_self] at hk ⊢
    exact hk
  · rw [JSObject.get?_set_ne _ _ _ _ hkc] at hk ⊢
    exact hext k v hk

theorem processReachable_iff (process : Process) (S : Selection) :
    processReachable process S = true ↔
      (isCompatible process.compatibility S = true ∨
        ∃ vs, vs ∈ buildVariantStates process S ∧ vs.isMatch = true) := by
  simp [processReachable, List.any_eq_true]

theorem processReachable_iff_entries (process : Process) (S : Selection) :
    processReachable process S = true ↔
      ∃ e, e ∈ entriesOfProcess process ∧ isCompatible e.compatibility S = true := by
  rw [processReachable_iff]
  constructor
  · rintro (h | ⟨vs, hvs, hm⟩)
    · exact ⟨processEntry process, List.mem_cons_self _ _, h⟩
    · obtain ⟨v, hv, rfl⟩ := List.mem_map.mp hvs
      exact ⟨variantEntry process v,
        List.mem_cons_of_mem _ (List.mem_map_of_mem _ hv), hm⟩
  · rintro ⟨e, he, hc⟩
    rcases List.mem_cons.mp he with rfl | he
    · exact Or.inl hc
    · obtain ⟨v, hv, rfl⟩ := List.mem_map.mp he
      exact Or.inr ⟨_, List.mem_map_of_mem _ hv, hc⟩

theorem foldl_resultsStep_snd (S : Selection) (processes : List Process)
    (acc : List ProcessMatchState × Bool) :
    (processes.foldl (resultsStep S) acc).2 =
      (acc.2 || processes.any (fun p => processReachable p S)) := by
  induction processes generalizing acc with
  | nil => simp
  | cons p ps ih =>
    rw [List.foldl_cons, ih]
    simp only [resultsStep, processReachable, List.any_cons]
    cases acc.2 <;>
      cases (isCompatible p.compatibility S ||
        (buildVariantStates p S).any (fun variant => variant.isMatch)) <;> simp

theorem exists_reachable_iff_entries (processes : List Process) (S : Selection) :
    (∃ p, p ∈ processes ∧ processReachable p S = true) ↔
      ∃ e, e ∈ buildProcessEntries processes ∧ isCompatible e.compatibility S = true := by
  rw [buildProcessEntries_eq]
  constructor
  · rintro ⟨p, hp, hr⟩
    obtain ⟨e, he, hc⟩ := (processReachable_iff_entries p S).mp hr
    exact ⟨e, List.mem_flatMap.mpr ⟨p, hp, he⟩, hc⟩
  · rintro ⟨e, he, hc⟩
    obtain ⟨p, hp, hep⟩ := List.mem_flatMap.mp he
    exact ⟨p, hp, (processReachable_iff_entries p S).mpr ⟨e, hep, hc⟩⟩

theorem get?_set_of_get? (S : Selection) (c o : Str) (h : S.get? c = some o) (k : Str) :
    (S.set c o).get? k = S.get? k := by
  by_cases hk : k = c
  · subst hk
    rw [JSObject.get?_set_self, h]
  · exact JSObject.get?_set_ne _ _ _ _ hk

/-- Claim C20: the results view and the flattened index agree.  `updateResults` sets
`anyMatch` exactly when some process has a base match or a matching variant state;
that holds exactly when some entry of `buildProcessEntries` is compatible with the
selection; hence for a pair already selected, `optionIsSupported` is true exactly
when some process or variant matches the selection. -/
theorem results_agree_with_entries (config : Configuration) (S : Selection) :
    (∃ view,
      updateResults (loadedState config S) = .ok view ∧
      (view.anyMatch = true ↔
        ∃ p, p ∈ config.processes ∧
          (isCompatible p.compatibility S = true ∨
            ∃ vs, vs ∈ buildVariantStates p S ∧ vs.isMatch = true))) ∧
    ((∃ p, p ∈ config.processes ∧
        (isCompatible p.compatibility S = true ∨
          ∃ vs, vs ∈ buildVariantStates p S ∧ vs.isMatch = true)) ↔
      ∃ e, e ∈ buildProcessEntries config.processes ∧
        isCompatible e.compatibility S = true) ∧
    (∀ c o, S.get? c = some o →
      ((optionIsSupported (loadedState config S) c o).1 = true ↔
        ∃ p, p ∈ config.processes ∧
          (isCompatible p.compatibility S = true ∨
            ∃ vs, vs ∈ buildVariantStates p S ∧ vs.isMatch = true))) := by
  have hreach : (∃ p, p ∈ config.processes ∧
        (isCompatible p.compatibility S = true ∨
          ∃ vs, vs ∈ buildVariantStates p S ∧ vs.isMatch = true)) ↔
      ∃ p, p ∈ config.processes ∧ processReachable p S = true := by
    constructor
    · rintro ⟨p, hp, h⟩
      exact ⟨p, hp, (processReachable_iff p S).mpr h⟩
    · rintro ⟨p, hp, h⟩
      exact ⟨p, hp, (processReachable_iff p S).mp h⟩
  refine ⟨⟨_, rfl, ?_⟩, ?_, ?_⟩
  · rw [hreach]
    simp only [foldl_resultsStep_snd, Bool.false_or, List.any_eq_true]
    rfl
  · rw [hreach]
    exact exists_reachable_iff_entries config.processes S
  · intro c o hsel
    rw [hreach, exists_reachable_iff_entries]
    simp only [optionIsSupported, loadedState, List.any_eq_true]
    constructor
    · rintro ⟨e, he, hc⟩
      exact ⟨e, he, by rwa [← isCompatible_congr_selection _ _ _ (get?_set_of_get? S c o hsel)]⟩
    · rintro ⟨e, he, hc⟩
      exact ⟨e, he, by rwa [isCompatible_congr_selection _ _ _ (get?_set_of_get? S c o hsel)]⟩

theorem optionIsSupported_antitone_witness :
    (optionIsSupported { sampleState with selected := JSObject.fromEntries [(['s', 'z'], ['s'])] }
      ['c', 'l', 'r'] ['r']).1 = true ∧
    (optionIsSupported { sampleState with selected := JSObject.empty }
      ['c', 'l', 'r'] ['r']).1 = true :=
  ⟨by decide,
    optionIsSupported_antitone { sampleState with selected := JSObject.empty }
      (JSObject.fromEntries [(['s', 'z'], ['s'])]) ['c', 'l', 'r'] ['r']
      (fun _ _ h => Option.noConfusion h) (by decide)⟩

theorem isCompatible_empty_requirements (S : Selection) (hS : S.entries ≠ []) :
    isCompatible JSObject.empty S = false := by
  unfold isCompatible
  cases hent : S.entries with
  | nil => exact absurd hent hS
  | cons kv rest => rfl

theorem resolveVariantCompatibility_csv (process : Process) (variant : Variant) (m : CompatMap)
    (hp : process.compatibility = JSObject.empty) (hr : variant.refinements = none)
    (ho : variant.compatibilityOverrides = none) (hc : variant.compatibility = some m) :
    resolveVariantCompatibility process variant = m := by
  rw [resolveVariantCompatibility_eq, ho, hp]
  simp only [baseLayer, hr, hc, Option.getD_none, Option.getD_some]
  rw [mergeCompatibility_empty_right]
  have : (JSObject.empty : CompatMap).keys = [] := rfl
  simp only [this, ne_eq, not_true_eq_false, if_false]
  exact mergeCompatibility_empty_left m

/-- Claim C12: in a configuration produced by `buildConfigFromCSV` every process has an
empty compatibility map; its base match is false for every non-empty selection and
true for the empty one, so under a non-empty selection it is reachable exactly when
one of its variants matches; the effective compatibility of each variant is the map
derived from its own row. -/
theorem csv_process_unconstrained (text : Str) (h3 : 3 ≤ (parseCSV text).length) :
    ∃ config, buildConfigFromCSV text = .ok config ∧
      ∀ p, p ∈ config.processes →
        p.compatibility = JSObject.empty ∧
        (∀ S : Selection, S.entries ≠ [] → isCompatible p.compatibility S = false) ∧
        isCompatible p.compatibility JSObject.empty = true ∧
        (∀ S : Selection, S.entries ≠ [] →
          ((isCompatible p.compatibility S = true ∨
              ∃ vs, vs ∈ buildVariantStates p S ∧ vs.isMatch = true) ↔
            ∃ vs, vs ∈ buildVariantStates p S ∧ vs.isMatch = true)) ∧
        (∀ v, v ∈ p.variants →
          ∃ row, row ∈ (parseCSV text).drop 2 ∧ rowKept row = true ∧
            v.compatibility = some (rowCompatibility ((parseCSV text)[0]?.getD [])
              ((parseCSV text)[1]?.getD []) row) ∧
            resolveVariantCompatibility p v =
              rowCompatibility ((parseCSV text)[0]?.getD []) ((parseCSV text)[1]?.getD [])
                row) := by
  refine ⟨_, buildConfigFromCSV_ok text h3, ?_⟩
  intro p hp
  have hvar := variants_of_mem_groupRows _ _ _ p hp
  have hempty : p.compatibility = JSObject.empty := by
    unfold groupRows at hp
    obtain ⟨pid, _, rfl⟩ := List.mem_map.mp hp
    rfl
  refine ⟨hempty, ?_, ?_, ?_, ?_⟩
  · intro S hS
    rw [hempty]
    exact isCompatible_empty_requirements S hS
  · rw [hempty]
    rfl
  · intro S hS
    rw [hempty, isCompatible_empty_requirements S hS]
    simp
  · intro v hv
    rw [hvar] at hv
    obtain ⟨row, hrow, rfl⟩ := List.mem_map.mp hv
    have hrow' := (List.mem_filter.mp hrow).1
    have hmem := List.mem_filter.mp hrow'
    refine ⟨row, hmem.1, hmem.2, rfl, ?_⟩
    exact resolveVariantCompatibility_csv p _ _ hempty rfl rfl rfl

theorem csv_process_unconstrained_witness :
    3 ≤ (parseCSV scenarioText).length ∧
    ∃ config, buildConfigFromCSV scenarioText = .ok config ∧
      ∀ p, p ∈ config.processes → p.compatibility = JSObject.empty := by
  refine ⟨by decide, ?_⟩
  obtain ⟨config, hok, h⟩ := csv_process_unconstrained scenarioText (by decide)
  exact ⟨config, hok, fun p hp => (h p hp).1⟩

theorem del_append_new {V : Type} (l : List (Str × V)) (k : Str) (v : V)
    (hk : k ∉ Assoc.keysOf l) : Assoc.del k (l ++ [(k, v)]) = l := by
  induction l with
  | nil => simp [Assoc.del]
  | cons hd tl ih =>
    obtain ⟨a, b⟩ := hd
    simp only [Assoc.keysOf, List.map_cons, List.mem_cons, not_or] at hk
    have h : ¬ a = k := fun e => hk.1 e.symm
    simp only [List.cons_append, Assoc.del, h, if_false]
    exact congrArg _ (ih hk.2)

theorem erase_set_of_absent (S : Selection) (c o : Str) (h : S.get? c = none) :
    (S.set c o).erase c = S := by
  apply JSObject.ext_entries
  have hk : c ∉ Assoc.keysOf S.entries := (JSObject.get?_eq_none_iff S c).mp h
  show Assoc.del c (Assoc.put c o S.entries) = S.entries
  rw [put_new _ _ _ hk, del_append_new _ _ _ hk]

theorem find_del_self {V : Type} (l : List (Str × V)) (k : Str) :
    Assoc.find k (Assoc.del k l) = none := by
  induction l with
  | nil => rfl
  | cons hd tl ih =>
    obtain ⟨a, b⟩ := hd
    by_cases h : a = k
    · simp only [Assoc.del, h, if_true, ih]
    · simp only [Assoc.del, h, if_false, Assoc.find, ih]

theorem find_del_ne {V : Type} (l : List (Str × V)) (k j : Str) (hj : j ≠ k) :
    Assoc.find j (Assoc.del k l) = Assoc.find j l := by
  induction l with
  | nil => rfl
  | cons hd tl ih =>
    obtain ⟨a, b⟩ := hd
    by_cases h : a = k
    · subst h
      have : ¬ a = j := fun e => hj e.symm
      simp only [Assoc.del, if_true, Assoc.find, this, if_false, ih]
    · by_cases h2 : a = j
      · subst h2
        simp only [Assoc.del, h, if_false, Assoc.find, if_true]
      · simp only [Assoc.del, h, if_false, Assoc.find, h2, ih]

theorem onOptionClick_enabled (st : AppState) (c o : Str) :
    onOptionClick st c o false = { st with selected := toggle st.selected c o } := by
  unfold onOptionClick toggle
  by_cases h : st.selected.get? c = some o
  · simp [h]
  · simp [h]

theorem onOptionClick_selected (st : AppState) (c o : Str) (disabled : Bool)
    (h : st.selected.get? c = some o) :
    onOptionClick st c o disabled = { st with selected := st.selected.erase c } := by
  unfold onOptionClick
  simp [h]

/-- Counterexample to claim C17 as stated: in the selection `c:p` the pair `(c, o)` is
not selected, and selecting then deselecting it leaves the empty selection, which
has lost the key `c`. -/
theorem toggle_twice_counterexample :
    (JSObject.fromEntries [(['c'], ['p'])] : Selection).get? ['c'] ≠ some ['o'] ∧
    (JSObject.fromEntries [(['c'], ['p'])] : Selection).keys = [['c']] ∧
    (onOptionClick
      (onOptionClick
        { config := none, selected := JSObject.fromEntries [(['c'], ['p'])],
          processEntries := [] } ['c'] ['o'] false) ['c'] ['o'] false).selected.keys = [] ∧
    (toggle (toggle (JSObject.fromEntries [(['c'], ['p'])]) ['c'] ['o']) ['c'] ['o']).keys
      = [] := by
  decide

/-- Claim C17, amended: `onOptionClick` on an enabled button performs `toggle`; for
every selection in which category `c` has no chosen option, selecting `(c, o)` and
then deselecting it gives back the same selection, key for key and value for value,
the deselect removing the key `c`; when `c` holds another option, the select
replaces it and the deselect removes the key `c`, every other key being kept. -/
theorem toggle_twice_amended (st : AppState) (c o : Str) (disabled : Bool)
    (hfree : st.selected.get? c = none) :
    onOptionClick st c o false = { st with selected := toggle st.selected c o } ∧
    (onOptionClick st c o false).selected.get? c = some o ∧
    onOptionClick (onOptionClick st c o false) c o disabled = st ∧
    toggle (toggle st.selected c o) c o = st.selected ∧
    (onOptionClick (onOptionClick st c o false) c o disabled).selected.hasKey c = false ∧
    (∀ (S : Selection) (p : Str), S.get? c = some p → p ≠ o →
      (toggle (toggle S c o) c o).get? c = none ∧
      ∀ k, k ≠ c → (toggle (toggle S c o) c o).get? k = S.get? k) := by
  have hne : st.selected.get? c ≠ some o := by rw [hfree]; exact fun e => Option.noConfusion e
  have h1 : toggle st.selected c o = st.selected.set c o := by
    unfold toggle
    rw [if_neg hne]
  have hsel : (onOptionClick st c o false).selected.get? c = some o := by
    rw [onOptionClick_enabled, h1]
    exact JSObject.get?_set_self _ _ _
  have h2 : onOptionClick (onOptionClick st c o false) c o disabled = st := by
    rw [onOptionClick_selected _ _ _ _ hsel, onOptionClick_enabled, h1]
    show { st with selected := (st.selected.set c o).erase c } = st
    rw [erase_set_of_absent _ _ _ hfree]
  refine ⟨onOptionClick_enabled st c o, hsel, h2, ?_, ?_, ?_⟩
  · rw [h1]
    unfold toggle
    rw [if_pos (JSObject.get?_set_self _ _ _), erase_set_of_absent _ _ _ hfree]
  · rw [h2]
    simp [JSObject.hasKey, hfree]
  · intro S p hp hpo
    have hS : S.get? c ≠ some o := by
      rw [hp]
      exact fun e => hpo (Option.some.inj e)
    have e1 : toggle S c o = S.set c o := by
      unfold toggle
      rw [if_neg hS]
    have e2 : toggle (S.set c o) c o = (S.set c o).erase c := by
      unfold toggle
      rw [if_pos (JSObject.get?_set_self _ _ _)]
    rw [e1, e2]
    refine ⟨find_del_self _ _, ?_⟩
    intro k hk
    show Assoc.find k (Assoc.del c (Assoc.put c o S.entries)) = _
    rw [find_del_ne _ _ _ hk]
    exact Assoc.find_put_ne c k o S.entries hk

theorem toggle_twice_amended_witness :
    sampleState.selected.get? ['c', 'l', 'r'] = none ∧
    onOptionClick (onOptionClick sampleState ['c', 'l', 'r'] ['r'] false)
      ['c', 'l', 'r'] ['r'] false = sampleState :=
  ⟨by decide, (toggle_twice_amended sampleState ['c', 'l', 'r'] ['r'] false (by decide)).2.2.1⟩

/-! ## Properties of the tokenizer -/

theorem quoteChar_ne_carriageReturn : quoteChar ≠ carriageReturn := by decide

theorem csvStep_carriageReturn (s : CsvState) :
    (csvStep s carriageReturn).rows = s.rows ∧ (csvStep s carriageReturn).row = s.row ∧
    (s.inQuotes = false → csvStep s carriageReturn = s) := by
  have h1 : ¬ carriageReturn = quoteChar := by decide
  have h2 : ¬ carriageReturn = ',' := by decide
  have h3 : ¬ carriageReturn = lineFeed := by decide
  unfold csvStep
  cases hq : s.inQuotes <;> simp [h1, h2, h3]

theorem noCR_pushField (s : CsvState) (h : s.noCR) : s.pushField.noCR := by
  obtain ⟨h1, h2, h3⟩ := h
  refine ⟨h1, ?_, by simp [CsvState.pushField]⟩
  intro f hf
  simp only [CsvState.pushField, List.mem_append, List.mem_singleton] at hf
  rcases hf with hf | rfl
  · exact h2 f hf
  · exact h3

theorem noCR_pushRow (s : CsvState) (h : s.noCR) : s.pushRow.noCR := by
  obtain ⟨h1, h2, h3⟩ := h
  refine ⟨?_, by simp [CsvState.pushRow], h3⟩
  intro row hrow
  simp only [CsvState.pushRow, List.mem_append, List.mem_singleton] at hrow
  rcases hrow with hrow | rfl
  · exact h1 row hrow
  · exact h2

theorem noCR_append_field (s : CsvState) (ch : Char) (q : Bool) (h : s.noCR)
    (hch : ch ≠ carriageReturn) :
    CsvState.noCR { s with field := s.field ++ [ch], inQuotes := q } := by
  obtain ⟨h1, h2, h3⟩ := h
  refine ⟨h1, h2, ?_⟩
  simp only [List.mem_append, List.mem_singleton, not_or]
  exact ⟨h3, fun e => hch e.symm⟩

theorem noCR_foldl_csvStep (text : Str) (s : CsvState)
    (hq : noQuotedCR s.inQuotes text = true) (h : s.noCR) :
    (text.foldl csvStep s).noCR := by
  induction text generalizing s with
  | nil => exact h
  | cons ch rest ih =>
    rw [List.foldl_cons]
    unfold noQuotedCR at hq
    by_cases hquote : ch = quoteChar
    · rw [if_pos hquote] at hq
      apply ih
      · cases hin : s.inQuotes <;> simp [csvStep, hin, hquote] at hq ⊢ <;> exact hq
      · cases hin : s.inQuotes <;> simp only [csvStep, hin, hquote, if_true] <;> exact h
    · rw [if_neg hquote] at hq
      cases hin : s.inQuotes with
      | true =>
        rw [hin] at hq
        have hcr : ch ≠ carriageReturn := by
          intro e
          simp [e] at hq
        have hq' : noQuotedCR true rest = true := by
          simpa [hcr] using hq
        apply ih
        · simpa [csvStep, hin, hquote] using hq'
        · simp only [csvStep, hin, hquote, if_true, if_false]
          have := noCR_append_field s ch true h hcr
          rw [← hin] at this
          exact this
      | false =>
        rw [hin] at hq
        have hq' : noQuotedCR false rest = true := by simpa using hq
        by_cases hcomma : ch = ','
        · apply ih
          · simpa [csvStep, hin, hquote, hcomma, CsvState.pushField] using hq'
          · simp only [csvStep, hin, hquote, hcomma, if_true, if_false]
            exact noCR_pushField s h
        by_cases hlf : ch = lineFeed
        · apply ih
          · simpa [csvStep, hin, hquote, hcomma, hlf, CsvState.pushField, CsvState.pushRow]
              using hq'
          · simp only [csvStep, hin, hquote, hcomma, hlf, if_true, if_false]
            exact noCR_pushRow _ (noCR_pushField s h)
        by_cases hcr : ch = carriageReturn
        · subst hcr
          rw [(csvStep_carriageReturn s).2.2 hin]
          apply ih
          · rw [hin]; exact hq'
          · exact h
        · apply ih
          · simpa [csvStep, hin, hquote, hcomma, hlf, hcr] using hq'
          · simp only [csvStep, hin, hquote, hcomma, hlf, hcr, if_true, if_false]
            have := noCR_append_field s ch false h hcr
            rw [← hin] at this
            exact this

theorem mem_dropTrailingEmptyRows (rows : List (List Str)) (row : List Str)
    (h : row ∈ dropTrailingEmptyRows rows) : row ∈ rows := by
  induction rows with
  | nil => simp [dropTrailingEmptyRows] at h
  | cons r rs ih =>
    unfold dropTrailingEmptyRows at h
    split at h
    · split at h
      · simp at h
      · rw [List.mem_singleton] at h
        rw [h]
        exact List.mem_cons_self _ _
    · rename_i heq
      rcases List.mem_cons.mp h with e | hmem
      · rw [e]
        exact List.mem_cons_self _ _
      · exact List.mem_cons_of_mem _ (ih hmem)

theorem noQuotedCR_of_no_quote (text : Str) (h : quoteChar ∉ text) :
    noQuotedCR false text = true := by
  induction text with
  | nil => rfl
  | cons ch rest ih =>
    simp only [List.mem_cons, not_or] at h
    have hne : ¬ ch = quoteChar := fun e => h.1 e.symm
    unfold noQuotedCR
    simp only [hne, if_false, Bool.false_and, Bool.false_eq_true]
    exact ih h.2

theorem mem_of_mem_stripBOM (t : Str) (x : Char) (h : x ∈ stripBOM t) : x ∈ t := by
  cases t with
  | nil => exact h
  | cons c cs =>
    by_cases hc : c = byteOrderMark
    · have : stripBOM (c :: cs) = cs := by
        show (if c = byteOrderMark then cs else c :: cs) = cs
        rw [if_pos hc]
      rw [this] at h
      exact List.mem_cons_of_mem _ h
    · have : stripBOM (c :: cs) = c :: cs := by
        show (if c = byteOrderMark then cs else c :: cs) = c :: cs
        rw [if_neg hc]
      rw [this] at h
      exact h

theorem stripBOM_quote (t : Str) : stripBOM (quoteChar :: t) = quoteChar :: t := by
  have hbom : ¬ quoteChar = byteOrderMark := by decide
  show (if quoteChar = byteOrderMark then t else quoteChar :: t) = quoteChar :: t
  rw [if_neg hbom]

/-- Counterexample to claim C15 as stated: a carriage return between two quotes is
kept, `parseCSV` returns one row with the one field made of that carriage return. -/
theorem carriage_return_counterexample :
    parseCSV [quoteChar, carriageReturn, quoteChar] = [[[carriageReturn]]] ∧
    carriageReturn ∈ [carriageReturn] := by
  decide

/-- Claim C15, amended: carriage returns read outside a quoted field are discarded.
For every input text in which no carriage return stands inside quotes (in particular
for every text without quote characters), no field of any row returned by `parseCSV`
contains a carriage return; and in every tokenizer state a carriage return leaves
the rows and the current row as they are: it never starts a new row. -/
theorem carriage_return_amended (text : Str) (hq : noQuotedCR false (stripBOM text) = true) :
    (∀ row, row ∈ parseCSV text → ∀ f, f ∈ row → carriageReturn ∉ f) ∧
    (∀ s : CsvState, (csvStep s carriageReturn).rows = s.rows ∧
      (csvStep s carriageReturn).row = s.row ∧
      (s.inQuotes = false → csvStep s carriageReturn = s)) ∧
    (∀ t : Str, quoteChar ∉ t → noQuotedCR false (stripBOM t) = true) := by
  refine ⟨?_, csvStep_carriageReturn, ?_⟩
  · intro row hrow
    unfold parseCSV at hrow
    have hfold := noCR_foldl_csvStep (stripBOM text)
      { rows := [], row := [], field := [], inQuotes := false } hq
      ⟨by simp, by simp, by simp⟩
    have hmem := mem_dropTrailingEmptyRows _ _ hrow
    simp only at hmem
    split at hmem
    · exact (noCR_pushRow _ (noCR_pushField _ hfold)).1 row hmem
    · exact hfold.1 row hmem
  · intro t ht
    apply noQuotedCR_of_no_quote
    intro hmem
    exact ht (mem_of_mem_stripBOM t quoteChar hmem)

theorem carriage_return_amended_witness :
    noQuotedCR false (stripBOM [carriageReturn, 'a', carriageReturn, lineFeed, 'b']) = true ∧
    ∀ row, row ∈ parseCSV [carriageReturn, 'a', carriageReturn, lineFeed, 'b'] →
      ∀ f, f ∈ row → carriageReturn ∉ f :=
  ⟨by decide,
    (carriage_return_amended [carriageReturn, 'a', carriageReturn, lineFeed, 'b']
      (by decide)).1⟩

theorem foldl_csvStep_doubleQuotes (content : Str) (s : CsvState) (hin : s.inQuotes = true) :
    (doubleQuotes content).foldl csvStep s =
      { s with field := s.field ++ content.filter (fun ch => decide (ch ≠ quoteChar)) } := by
  induction content generalizing s with
  | nil => simp [doubleQuotes]
  | cons ch rest ih =>
    have hcons : doubleQuotes (ch :: rest) =
        (if ch = quoteChar then [quoteChar, quoteChar] else [ch]) ++ doubleQuotes rest := by
      simp [doubleQuotes]
    rw [hcons, List.foldl_append]
    by_cases hq : ch = quoteChar
    · subst hq
      have hstep : [quoteChar, quoteChar].foldl csvStep s = s := by
        cases s
        simp only at hin
        subst hin
        simp [csvStep]
      simp only [if_true, hstep]
      rw [ih s hin]
      simp
    · have hstep : [ch].foldl csvStep s = { s with field := s.field ++ [ch] } := by
        simp [csvStep, hin, hq]
      simp only [hq, if_false, hstep]
      rw [ih { s with field := s.field ++ [ch] } hin]
      simp [hq]

theorem parseCSV_doubled (content : Str) :
    parseCSV (quoteChar :: doubleQuotes content ++ [quoteChar]) =
      if content.filter (fun ch => decide (ch ≠ quoteChar)) = [] then []
      else [[content.filter (fun ch => decide (ch ≠ quoteChar))]] := by
  unfold parseCSV
  rw [List.cons_append, stripBOM_quote]
  simp only [List.foldl_cons, List.foldl_append, List.foldl_nil]
  have h1 : csvStep { rows := [], row := [], field := [], inQuotes := false } quoteChar =
      { rows := [], row := [], field := [], inQuotes := true } := by
    simp [csvStep]
  rw [h1, foldl_csvStep_doubleQuotes _ _ rfl]
  simp only [csvStep, if_true, List.nil_append]
  cases hf : content.filter (fun ch => decide (ch ≠ quoteChar)) with
  | nil => simp [dropTrailingEmptyRows]
  | cons c cs =>
    simp [CsvState.pushField, CsvState.pushRow, dropTrailingEmptyRows]

/-- Counterexample to claim C16 as stated: the content `a"b`, with its quote doubled
and wrapped in quotes, is tokenized to the single field `ab`, not to `a"b`. -/
theorem escape_by_doubling_counterexample :
    quoteChar :: doubleQuotes ['a', quoteChar, 'b'] ++ [quoteChar] =
      [quoteChar, 'a', quoteChar, quoteChar, 'b', quoteChar] ∧
    parseCSV (quoteChar :: doubleQuotes ['a', quoteChar, 'b'] ++ [quoteChar]) =
      [[['a', 'b']]] ∧
    parseCSV (quoteChar :: doubleQuotes ['a', quoteChar, 'b'] ++ [quoteChar]) ≠
      [[['a', quoteChar, 'b']]] := by
  decide

/-- Claim C16, amended: the tokenizer has no escape by doubling; every quote character
toggles the quoted mode and is never content.  For every field content, the text
obtained by doubling its quotes and wrapping it in quotes is tokenized by `parseCSV`
to the single field made of the content without its quote characters (to no row at
all when nothing remains); content without quote characters comes back unchanged. -/
theorem escape_by_doubling_amended (content : Str) :
    parseCSV (quoteChar :: doubleQuotes content ++ [quoteChar]) =
      (if content.filter (fun ch => decide (ch ≠ quoteChar)) = [] then []
       else [[content.filter (fun ch => decide (ch ≠ quoteChar))]]) ∧
    (quoteChar ∉ content → content ≠ [] →
      parseCSV (quoteChar :: doubleQuotes content ++ [quoteChar]) = [[content]]) ∧
    (∀ s : CsvState, (csvStep s quoteChar).field = s.field ∧
      (csvStep s quoteChar).inQuotes = !s.inQuotes) := by
  refine ⟨parseCSV_doubled content, ?_, ?_⟩
  · intro hq hne
    have hfilter : content.filter (fun ch => decide (ch ≠ quoteChar)) = content := by
      rw [List.filter_eq_self]
      intro ch hch
      simp only [ne_eq, decide_eq_true_eq]
      rintro rfl
      exact hq hch
    rw [parseCSV_doubled, hfilter, if_neg hne]
  · intro s
    unfold csvStep
    cases s.inQuotes <;> simp

theorem foldl_csvStep_quoted (f : Str) (s : CsvState) (hin : s.inQuotes = true)
    (hq : quoteChar ∉ f) :
    f.foldl csvStep s = { s with field := s.field ++ f } := by
  induction f generalizing s with
  | nil => simp
  | cons ch rest ih =>
    simp only [List.mem_cons, not_or] at hq
    have hne : ¬ ch = quoteChar := fun e => hq.1 e.symm
    rw [List.foldl_cons]
    have hstep : csvStep s ch = { s with field := s.field ++ [ch] } := by
      simp [csvStep, hin, hne]
    rw [hstep, ih { s with field := s.field ++ [ch] } hin hq.2]
    simp

theorem foldl_csvStep_quoteField (f : Str) (s : CsvState) (hin : s.inQuotes = false)
    (hq : quoteChar ∉ f) :
    (quoteField f).foldl csvStep s = { s with field := s.field ++ f } := by
  unfold quoteField
  rw [List.cons_append, List.foldl_cons, List.foldl_append]
  have h1 : csvStep s quoteChar = { s with inQuotes := true } := by
    simp [csvStep, hin]
  rw [h1, foldl_csvStep_quoted f _ rfl hq]
  cases s
  simp only at hin
  subst hin
  simp [csvStep]

theorem encodeRow_cons (f : Str) (row : List Str) (h : row ≠ []) :
    encodeRow (f :: row) = quoteField f ++ ',' :: encodeRow row := by
  cases row with
  | nil => exact absurd rfl h
  | cons g rest => rfl

theorem encodeRows_cons (r : List Str) (rows : List (List Str)) (h : rows ≠ []) :
    encodeRows (r :: rows) = encodeRow r ++ lineFeed :: encodeRows rows := by
  cases rows with
  | nil => exact absurd rfl h
  | cons g rest => rfl

theorem foldl_csvStep_encodeRow (init : List Str) (last : Str) (s : CsvState)
    (hin : s.inQuotes = false) (hf : s.field = [])
    (hq : ∀ f, f ∈ init ++ [last] → quoteChar ∉ f) :
    (encodeRow (init ++ [last])).foldl csvStep s =
      { s with row := s.row ++ init, field := last } := by
  induction init generalizing s with
  | nil =>
    show (encodeRow [last]).foldl csvStep s = _
    show (quoteField last).foldl csvStep s = _
    rw [foldl_csvStep_quoteField last s hin (hq last (by simp)), hf]
    simp
  | cons f rest ih =>
    have hcomma : ¬ (',' : Char) = quoteChar := by decide
    rw [List.cons_append, encodeRow_cons f (rest ++ [last]) (by simp), List.foldl_append,
      List.foldl_cons, foldl_csvStep_quoteField f s hin (hq f (by simp)), hf]
    have hstep : csvStep { s with field := [] ++ f } ',' =
        { s with row := s.row ++ [f], field := [] } := by
      simp [csvStep, hin, hcomma, CsvState.pushField]
    rw [hstep, ih { s with row := s.row ++ [f], field := [] } hin rfl
      (fun g hg => hq g (by simp at hg ⊢; tauto))]
    simp

theorem exists_snoc_of_ne_nil {α : Type} (l : List α) (h : l ≠ []) :
    ∃ i x, l = i ++ [x] := by
  rcases List.eq_nil_or_concat l with hnil | ⟨i, x, hx⟩
  · exact absurd hnil h
  · exact ⟨i, x, by rw [hx, List.concat_eq_append]⟩

theorem foldl_csvStep_encodeRows (initRows : List (List Str)) (initF : List Str) (lastF : Str)
    (s : CsvState) (hin : s.inQuotes = false) (hf : s.field = []) (hr : s.row = [])
    (hne : ∀ row, row ∈ initRows → row ≠ [])
    (hq : ∀ row, row ∈ initRows ++ [initF ++ [lastF]] → ∀ f, f ∈ row → quoteChar ∉ f) :
    (encodeRows (initRows ++ [initF ++ [lastF]])).foldl csvStep s =
      { s with rows := s.rows ++ initRows, row := initF, field := lastF } := by
  induction initRows generalizing s with
  | nil =>
    show (encodeRow (initF ++ [lastF])).foldl csvStep s = _
    rw [foldl_csvStep_encodeRow initF lastF s hin hf (hq _ (by simp)), hr]
    simp
  | cons r rest ih =>
    have hlf1 : ¬ lineFeed = quoteChar := by decide
    have hlf2 : ¬ lineFeed = ',' := by decide
    obtain ⟨i, l, rfl⟩ := exists_snoc_of_ne_nil r (hne r (List.mem_cons_self _ _))
    · rw [List.cons_append, encodeRows_cons _ _ (by simp), List.foldl_append, List.foldl_cons,
        foldl_csvStep_encodeRow i l s hin hf (hq _ (by simp)), hr]
      have hstep : csvStep { s with row := [] ++ i, field := l } lineFeed =
          { s with rows := s.rows ++ [i ++ [l]], row := [], field := [] } := by
        simp [csvStep, hin, hlf1, hlf2, CsvState.pushField, CsvState.pushRow]
      rw [hstep, ih { s with rows := s.rows ++ [i ++ [l]], row := [], field := [] } hin rfl rfl
        (fun row hrow => hne row (List.mem_cons_of_mem _ hrow))
        (fun row hrow => hq row (by simp at hrow ⊢; tauto))]
      simp

theorem dropTrailingEmptyRows_append_singleton (xs : List (List Str)) (r : List Str)
    (hr : r.all (fun c => decide (c = [])) = false) :
    dropTrailingEmptyRows (xs ++ [r]) = xs ++ [r] := by
  induction xs with
  | nil => simp [dropTrailingEmptyRows, hr]
  | cons x xs ih =>
    rw [List.cons_append]
    unfold dropTrailingEmptyRows
    rw [ih]
    cases hxs : xs ++ [r] with
    | nil => simp at hxs
    | cons a b => rfl

theorem encodeRows_head (initRows : List (List Str)) (lastRow : List Str)
    (hne : ∀ row, row ∈ initRows ++ [lastRow] → row ≠ []) :
    ∃ t, encodeRows (initRows ++ [lastRow]) = quoteChar :: t := by
  have hrow : ∀ row : List Str, row ≠ [] → ∃ t, encodeRow row = quoteChar :: t := by
    intro row hrow
    cases row with
    | nil => exact absurd rfl hrow
    | cons f rest =>
      cases rest with
      | nil => exact ⟨f ++ [quoteChar], rfl⟩
      | cons g rest' => exact ⟨f ++ [quoteChar] ++ ',' :: encodeRow (g :: rest'), by
          simp [encodeRow, quoteField]⟩
  cases initRows with
  | nil => exact hrow lastRow (hne lastRow (by simp))
  | cons r rest =>
    obtain ⟨t, ht⟩ := hrow r (hne r (by simp))
    rw [List.cons_append, encodeRows_cons _ _ (by simp), ht]
    exact ⟨_, rfl⟩

/-- Claim C19: quoted fields round-trip.  For rows that each have at least one field,
whose last row has a non-empty field and whose fields contain no quote character
(commas, line feeds and carriage returns are allowed), wrapping every field in
quotes, joining fields with commas and rows with line feeds, with or without a
final line feed, gives a text that `parseCSV` tokenizes back to exactly those rows. -/
theorem quoted_round_trip (initRows : List (List Str)) (lastRow : List Str)
    (hne : ∀ row, row ∈ initRows ++ [lastRow] → row ≠ [])
    (hlast : ∃ f, f ∈ lastRow ∧ f ≠ [])
    (hq : ∀ row, row ∈ initRows ++ [lastRow] → ∀ f, f ∈ row → quoteChar ∉ f) :
    parseCSV (encodeRows (initRows ++ [lastRow])) = initRows ++ [lastRow] ∧
    parseCSV (encodeRows (initRows ++ [lastRow]) ++ [lineFeed]) = initRows ++ [lastRow] := by
  have hlf1 : ¬ lineFeed = quoteChar := by decide
  have hlf2 : ¬ lineFeed = ',' := by decide
  obtain ⟨t, ht⟩ := encodeRows_head initRows lastRow hne
  have hall : lastRow.all (fun c => decide (c = [])) = false := by
    obtain ⟨f, hf, hfne⟩ := hlast
    rw [Bool.eq_false_iff, Ne, List.all_eq_true]
    intro h
    exact hfne (of_decide_eq_true (h f hf))
  obtain ⟨initF, lastF, rfl⟩ := exists_snoc_of_ne_nil lastRow (hne lastRow (by simp))
  have hfold := foldl_csvStep_encodeRows initRows initF lastF
    { rows := [], row := [], field := [], inQuotes := false } rfl rfl rfl
    (fun row hrow => hne row (List.mem_append_left _ hrow)) hq
  have hflush : lastF.length > 0 ∨ initF.length > 0 := by
    obtain ⟨f, hf, hfne⟩ := hlast
    rcases List.mem_append.mp hf with hmem | hmem
    · exact Or.inr (List.length_pos_of_mem hmem)
    · rw [List.mem_singleton] at hmem
      subst hmem
      exact Or.inl (List.length_pos.mpr hfne)
  constructor
  · unfold parseCSV
    have hstrip : stripBOM (encodeRows (initRows ++ [initF ++ [lastF]])) =
        encodeRows (initRows ++ [initF ++ [lastF]]) := by
      rw [ht]; exact stripBOM_quote t
    rw [hstrip, hfold]
    simp only [List.nil_append, hflush, if_true, CsvState.pushField, CsvState.pushRow]
    exact dropTrailingEmptyRows_append_singleton _ _ hall
  · unfold parseCSV
    have hstrip : stripBOM (encodeRows (initRows ++ [initF ++ [lastF]]) ++ [lineFeed]) =
        encodeRows (initRows ++ [initF ++ [lastF]]) ++ [lineFeed] := by
      rw [ht]; exact stripBOM_quote _
    rw [hstrip, List.foldl_append, hfold]
    simp [csvStep, hlf1, hlf2, CsvState.pushField, CsvState.pushRow]
    exact dropTrailingEmptyRows_append_singleton _ _ hall

theorem quoted_round_trip_witness :
    (∃ f, f ∈ [['a', ',', 'b'], []] ∧ f ≠ ([] : Str)) ∧
    parseCSV (encodeRows ([[[]], [['x', lineFeed, 'y']]] ++ [[['a', ',', 'b'], []]])) =
      [[[]], [['x', lineFeed, 'y']]] ++ [[['a', ',', 'b'], []]] :=
  ⟨by decide,
    (quoted_round_trip [[[]], [['x', lineFeed, 'y']]] [['a', ',', 'b'], []]
      (by decide) (by decide) (by decide)).1⟩

/-! ## Properties of the header loop -/

theorem labelOfFirst_append_old (header : List Str) (cols : List Nat) (c : Nat) (x : Str)
    (hx : x ∈ cols.map (headerId header)) :
    labelOfFirst header (cols ++ [c]) x = labelOfFirst header cols x := by
  obtain ⟨c0, hc0, hid⟩ := List.mem_map.mp hx
  unfold labelOfFirst
  rw [List.find?_append]
  cases hf : cols.find? (fun c => decide (headerId header c = x)) with
  | none =>
    rw [List.find?_eq_none] at hf
    exact absurd (by simpa using hid) (hf c0 hc0)
  | some c1 => rfl

theorem labelOfFirst_append_new (header : List Str) (cols : List Nat) (c : Nat)
    (hx : headerId header c ∉ cols.map (headerId header)) :
    labelOfFirst header (cols ++ [c]) (headerId header c) = headerLabel header c := by
  have hnone : cols.find? (fun c' => decide (headerId header c' = headerId header c)) = none := by
    rw [List.find?_eq_none]
    intro c' hc' h
    exact hx (List.mem_map.mpr ⟨c', hc', by simpa using h⟩)
  unfold labelOfFirst
  rw [List.find?_append, hnone]
  simp

theorem optionsOfColumns_append (header2 : List Str) (cols : List Nat) (c : Nat) :
    optionsOfColumns header2 (cols ++ [c]) =
      if headerId header2 c ∈ cols.map (headerId header2) then optionsOfColumns header2 cols
      else optionsOfColumns header2 cols ++
        [{ id := headerId header2 c, label := headerLabel header2 c }] := by
  unfold optionsOfColumns
  rw [List.map_append, List.map_cons, List.map_nil, firstOccurrences_append_singleton]
  by_cases h : headerId header2 c ∈ cols.map (headerId header2)
  · rw [if_pos ((mem_firstOccurrences _ _).mpr h), if_pos h]
    apply List.map_congr_left
    intro o ho
    rw [labelOfFirst_append_old _ _ _ _ ((mem_firstOccurrences _ _).mp ho)]
  · rw [if_neg (fun h' => h ((mem_firstOccurrences _ _).mp h')), if_neg h, List.map_append,
      List.map_cons, List.map_nil, labelOfFirst_append_new _ _ _ h]
    congr 1
    apply List.map_congr_left
    intro o ho
    rw [labelOfFirst_append_old _ _ _ _ ((mem_firstOccurrences _ _).mp ho)]

theorem categoryOfColumns_append_other (header1 header2 : List Str) (cols : List Nat) (c : Nat)
    (x : Str) (hx : x ∈ cols.map (headerId header1)) (hne : headerId header1 c ≠ x) :
    categoryOfColumns header1 header2 (cols ++ [c]) x =
      categoryOfColumns header1 header2 cols x := by
  unfold categoryOfColumns
  rw [labelOfFirst_append_old _ _ _ _ hx, List.filter_append]
  simp [hne]

theorem categoryOfColumns_append_same (header1 header2 : List Str) (cols : List Nat) (c : Nat)
    (hx : headerId header1 c ∈ cols.map (headerId header1)) :
    categoryOfColumns header1 header2 (cols ++ [c]) (headerId header1 c) =
      { categoryOfColumns header1 header2 cols (headerId header1 c) with
        options := optionsOfColumns header2
          (cols.filter (fun c' => decide (headerId header1 c' = headerId header1 c)) ++ [c]) } := by
  unfold categoryOfColumns
  rw [labelOfFirst_append_old _ _ _ _ hx, List.filter_append]
  simp

theorem categoryOfColumns_append_new (header1 header2 : List Str) (cols : List Nat) (c : Nat)
    (hx : headerId header1 c ∉ cols.map (headerId header1)) :
    categoryOfColumns header1 header2 (cols ++ [c]) (headerId header1 c) =
      { id := headerId header1 c, label := headerLabel header1 c,
        options := [{ id := headerId header2 c, label := headerLabel header2 c }] } := by
  have hfilter : cols.filter (fun c' => decide (headerId header1 c' = headerId header1 c)) = [] := by
    rw [List.filter_eq_nil_iff]
    intro c' hc' h
    exact hx (List.mem_map.mpr ⟨c', hc', by simpa using h⟩)
  unfold categoryOfColumns
  rw [labelOfFirst_append_new _ _ _ hx, List.filter_append, hfilter]
  simp [optionsOfColumns, firstOccurrences, labelOfFirst]

theorem modifyAt_length_append {α : Type} (f : α → α) (l : List α) (x : α) :
    modifyAt f l.length (l ++ [x]) = l ++ [f x] := by
  induction l with
  | nil => rfl
  | cons a as ih =>
    show a :: modifyAt f as.length (as ++ [x]) = a :: (as ++ [f x])
    rw [ih]

theorem modifyAt_map_nodup {α : Type} (f : α → α) (F : Str → α) (ids : List Str)
    (hn : ids.Nodup) (i : Nat) (k : Str) (hi : ids[i]? = some k) :
    modifyAt f i (ids.map F) = ids.map (fun x => if x = k then f (F x) else F x) := by
  induction ids generalizing i with
  | nil => simp at hi
  | cons a as ih =>
    rw [List.nodup_cons] at hn
    cases i with
    | zero =>
      simp only [List.getElem?_cons_zero, Option.some.injEq] at hi
      subst hi
      simp only [List.map_cons, modifyAt, if_true, List.cons.injEq, true_and]
      apply List.map_congr_left
      intro x hx
      have : x ≠ a := fun e => hn.1 (e ▸ hx)
      simp [this]
    | succ j =>
      simp only [List.getElem?_cons_succ] at hi
      have hk : k ∈ as := List.getElem?_mem hi
      have hne : ¬ a = k := fun e => hn.1 (e ▸ hk)
      simp only [List.map_cons, modifyAt, hne, if_false, ih hn.2 j hi]

theorem categoryStep_unused (header1 header2 : List Str) (acc : CategoryAcc) (c : Nat)
    (h : columnUsed header1 header2 c = false) : categoryStep header1 header2 acc c = acc := by
  have h' : headerId header1 c = [] ∨ headerId header2 c = [] := by
    simp only [columnUsed, Bool.and_eq_false_iff, decide_eq_false_iff_not, ne_eq,
      Classical.not_not] at h
    exact h
  unfold categoryStep
  simp only [headerId] at h'
  simp only [h', if_true]

theorem categoryStep_new (header1 header2 : List Str) (acc : CategoryAcc) (c : Nat)
    (h : columnUsed header1 header2 c = true)
    (hnew : Assoc.find (headerId header1 c) acc.categoryIndex = none) :
    categoryStep header1 header2 acc c =
      { categoryIndex := Assoc.put (headerId header1 c) acc.categories.length acc.categoryIndex,
        categories := acc.categories ++
          [{ id := headerId header1 c, label := headerLabel header1 c,
             options := [{ id := headerId header2 c, label := headerLabel header2 c }] }],
        optionsByCategory := Assoc.put (headerId header1 c) [headerId header2 c]
          acc.optionsByCategory } := by
  have h' : ¬ (headerId header1 c = [] ∨ headerId header2 c = []) := by
    simp only [columnUsed, Bool.and_eq_true, decide_eq_true_eq] at h
    rintro (e | e)
    · exact h.1 e
    · exact h.2 e
  unfold categoryStep
  simp only [headerId, headerLabel] at h' hnew ⊢
  simp only [h', if_false, hnew, Option.isNone_none, if_true, Assoc.find_put_self,
    List.not_mem_nil, not_false_eq_true, modifyAt_length_append, Assoc.put_put,
    List.nil_append]

theorem categoryStep_old (header1 header2 : List Str) (acc : CategoryAcc) (c : Nat)
    (h : columnUsed header1 header2 c = true) (i : Nat) (seen : List Str)
    (hidx : Assoc.find (headerId header1 c) acc.categoryIndex = some i)
    (hseen : Assoc.find (headerId header1 c) acc.optionsByCategory = some seen) :
    categoryStep header1 header2 acc c =
      if headerId header2 c ∈ seen then acc
      else
        { acc with
          categories := modifyAt (fun category =>
            { category with options := category.options ++
                [{ id := headerId header2 c, label := headerLabel header2 c }] })
            i acc.categories,
          optionsByCategory := Assoc.put (headerId header1 c) (seen ++ [headerId header2 c])
            acc.optionsByCategory } := by
  have h' : ¬ (headerId header1 c = [] ∨ headerId header2 c = []) := by
    simp only [columnUsed, Bool.and_eq_true, decide_eq_true_eq] at h
    rintro (e | e)
    · exact h.1 e
    · exact h.2 e
  unfold categoryStep
  simp only [headerId, headerLabel] at h' hidx hseen ⊢
  simp only [h', if_false, hidx, hseen, Option.isNone_some, Bool.false_eq_true]

theorem getElem?_append_singleton_of_some {α : Type} (l : List α) (x a : α) (i : Nat)
    (h : l[i]? = some a) : (l ++ [x])[i]? = some a := by
  induction l generalizing i with
  | nil => simp at h
  | cons b bs ih =>
    cases i with
    | zero =>
      simp only [List.cons_append, List.getElem?_cons_zero] at h ⊢
      exact h
    | succ j =>
      simp only [List.cons_append, List.getElem?_cons_succ] at h ⊢
      exact ih j h

theorem getElem?_append_singleton_length {α : Type} (l : List α) (x : α) :
    (l ++ [x])[l.length]? = some x :=
  List.getElem?_concat_length l x

theorem filter_append_singleton_ne (header1 : List Str) (U : List Nat) (c : Nat) (x : Str)
    (hne : headerId header1 c ≠ x) :
    (U ++ [c]).filter (fun c' => decide (headerId header1 c' = x)) =
      U.filter (fun c' => decide (headerId header1 c' = x)) := by
  rw [List.filter_append]
  simp [hne]

theorem filter_append_singleton_eq (header1 : List Str) (U : List Nat) (c : Nat) :
    (U ++ [c]).filter (fun c' => decide (headerId header1 c' = headerId header1 c)) =
      U.filter (fun c' => decide (headerId header1 c' = headerId header1 c)) ++ [c] := by
  rw [List.filter_append]
  simp

theorem categoryInv_new (header1 header2 : List Str) (U : List Nat) (acc : CategoryAcc)
    (c : Nat) (hinv : CategoryInv header1 header2 U acc)
    (hused : columnUsed header1 header2 c = true)
    (hnew : Assoc.find (headerId header1 c) acc.categoryIndex = none) :
    CategoryInv header1 header2 (U ++ [c]) (categoryStep header1 header2 acc c) := by
  have hk : headerId header1 c ∉ U.map (headerId header1) := (hinv.index_none _).mp hnew
  have hk' : headerId header1 c ∉ firstOccurrences (U.map (headerId header1)) :=
    fun h => hk ((mem_firstOccurrences _ _).mp h)
  have hlen : acc.categories.length = (firstOccurrences (U.map (headerId header1))).length := by
    rw [hinv.cats, categoriesOfColumns, List.length_map]
  have hfo : firstOccurrences ((U ++ [c]).map (headerId header1)) =
      firstOccurrences (U.map (headerId header1)) ++ [headerId header1 c] := by
    rw [List.map_append, List.map_cons, List.map_nil, firstOccurrences_append_singleton,
      if_neg hk']
  rw [categoryStep_new _ _ _ _ hused hnew]
  refine ⟨?_, ?_, ?_, ?_⟩
  · show acc.categories ++ _ = categoriesOfColumns header1 header2 (U ++ [c])
    rw [categoriesOfColumns, hfo, List.map_append, List.map_cons, List.map_nil,
      categoryOfColumns_append_new _ _ _ _ hk, hinv.cats, categoriesOfColumns]
    congr 1
    apply List.map_congr_left
    intro x hx
    have hx' := (mem_firstOccurrences _ _).mp hx
    rw [categoryOfColumns_append_other _ _ _ _ _ hx' (fun e => hk (e ▸ hx'))]
  · intro x i hfind
    rw [hfo]
    by_cases hx : x = headerId header1 c
    · subst hx
      rw [Assoc.find_put_self] at hfind
      have hi : i = acc.categories.length := (Option.some.inj hfind).symm
      rw [hi, hlen]
      exact getElem?_append_singleton_length _ _
    · rw [Assoc.find_put_ne _ _ _ _ hx] at hfind
      exact getElem?_append_singleton_of_some _ _ _ _ (hinv.index_some x i hfind)
  · intro x
    by_cases hx : x = headerId header1 c
    · subst hx
      simp [Assoc.find_put_self]
    · rw [Assoc.find_put_ne _ _ _ _ hx, hinv.index_none x]
      simp [hx]
  · intro x hxmem
    by_cases hx : x = headerId header1 c
    · subst hx
      have hfilter : U.filter (fun c' => decide (headerId header1 c' = headerId header1 c)) = [] := by
        rw [List.filter_eq_nil_iff]
        intro c' hc' h
        exact hk (List.mem_map.mpr ⟨c', hc', by simpa using h⟩)
      rw [Assoc.find_put_self, filter_append_singleton_eq, hfilter]
      rfl
    · have hxU : x ∈ U.map (headerId header1) := by
        simp only [List.map_append, List.map_cons, List.map_nil, List.mem_append,
          List.mem_singleton] at hxmem
        rcases hxmem with h | h
        · exact h
        · exact absurd h hx
      rw [Assoc.find_put_ne _ _ _ _ hx,
        filter_append_singleton_ne _ _ _ _ (fun e => hx e.symm)]
      exact hinv.seen x hxU

theorem categoryInv_old (header1 header2 : List Str) (U : List Nat) (acc : CategoryAcc)
    (c : Nat) (hinv : CategoryInv header1 header2 U acc)
    (hused : columnUsed header1 header2 c = true) (i : Nat)
    (hidx : Assoc.find (headerId header1 c) acc.categoryIndex = some i) :
    CategoryInv header1 header2 (U ++ [c]) (categoryStep header1 header2 acc c) := by
  have hk : headerId header1 c ∈ U.map (headerId header1) := by
    by_contra hn
    rw [(hinv.index_none _).mpr hn] at hidx
    exact Option.noConfusion hidx
  have hk' : headerId header1 c ∈ firstOccurrences (U.map (headerId header1)) :=
    (mem_firstOccurrences _ _).mpr hk
  have hfo : firstOccurrences ((U ++ [c]).map (headerId header1)) =
      firstOccurrences (U.map (headerId header1)) := by
    rw [List.map_append, List.map_cons, List.map_nil, firstOccurrences_append_singleton,
      if_pos hk']
  have hmem : ∀ x, x ∈ (U ++ [c]).map (headerId header1) ↔ x ∈ U.map (headerId header1) := by
    intro x
    simp only [List.map_append, List.map_cons, List.map_nil, List.mem_append,
      List.mem_singleton]
    constructor
    · rintro (h | h)
      · exact h
      · rw [h]; exact hk
    · exact Or.inl
  have hseen := hinv.seen _ hk
  have hseenfo : firstOccurrences
      (((U ++ [c]).filter (fun c' => decide (headerId header1 c' = headerId header1 c))).map
        (headerId header2)) =
      if headerId header2 c ∈ firstOccurrences
          ((U.filter (fun c' => decide (headerId header1 c' = headerId header1 c))).map
            (headerId header2)) then
        firstOccurrences
          ((U.filter (fun c' => decide (headerId header1 c' = headerId header1 c))).map
            (headerId header2))
      else
        firstOccurrences
          ((U.filter (fun c' => decide (headerId header1 c' = headerId header1 c))).map
            (headerId header2)) ++ [headerId header2 c] := by
    rw [filter_append_singleton_eq, List.map_append, List.map_cons, List.map_nil,
      firstOccurrences_append_singleton]
  rw [categoryStep_old _ _ _ _ hused i _ hidx hseen]
  by_cases ho : headerId header2 c ∈ firstOccurrences
      ((U.filter (fun c' => decide (headerId header1 c' = headerId header1 c))).map
        (headerId header2))
  · rw [if_pos ho]
    rw [if_pos ho] at hseenfo
    have ho' := (mem_firstOccurrences _ _).mp ho
    refine ⟨?_, ?_, ?_, ?_⟩
    · rw [hinv.cats, categoriesOfColumns, categoriesOfColumns, hfo]
      apply List.map_congr_left
      intro x hx
      have hx' := (mem_firstOccurrences _ _).mp hx
      by_cases hxk : headerId header1 c = x
      · subst hxk
        rw [categoryOfColumns_append_same _ _ _ _ hk, optionsOfColumns_append, if_pos ho']
        rfl
      · rw [categoryOfColumns_append_other _ _ _ _ _ hx' hxk]
    · intro x j hfind
      rw [hfo]
      exact hinv.index_some x j hfind
    · intro x
      rw [hinv.index_none x, hmem x]
    · intro x hxmem
      have hxU := (hmem x).mp hxmem
      by_cases hxk : headerId header1 c = x
      · subst hxk
        rw [hseenfo]
        exact hseen
      · rw [filter_append_singleton_ne _ _ _ _ hxk]
        exact hinv.seen x hxU
  · rw [if_neg ho]
    rw [if_neg ho] at hseenfo
    have ho' : headerId header2 c ∉
        (U.filter (fun c' => decide (headerId header1 c' = headerId header1 c))).map
          (headerId header2) := fun h => ho ((mem_firstOccurrences _ _).mpr h)
    refine ⟨?_, ?_, ?_, ?_⟩
    · show modifyAt _ i acc.categories = categoriesOfColumns header1 header2 (U ++ [c])
      rw [hinv.cats, categoriesOfColumns, categoriesOfColumns, hfo,
        modifyAt_map_nodup _ _ _ (nodup_firstOccurrences _) i _ (hinv.index_some _ i hidx)]
      apply List.map_congr_left
      intro x hx
      have hx' := (mem_firstOccurrences _ _).mp hx
      by_cases hxk : x = headerId header1 c
      · subst hxk
        rw [if_pos rfl, categoryOfColumns_append_same _ _ _ _ hk, optionsOfColumns_append,
          if_neg ho']
        rfl
      · rw [if_neg hxk, categoryOfColumns_append_other _ _ _ _ _ hx' (fun e => hxk e.symm)]
    · intro x j hfind
      rw [hfo]
      exact hinv.index_some x j hfind
    · intro x
      show Assoc.find x acc.categoryIndex = none ↔ _
      rw [hinv.index_none x, hmem x]
    · intro x hxmem
      have hxU := (hmem x).mp hxmem
      show Assoc.find x (Assoc.put _ _ acc.optionsByCategory) = _
      by_cases hxk : x = headerId header1 c
      · subst hxk
        rw [Assoc.find_put_self, hseenfo]
      · rw [Assoc.find_put_ne _ _ _ _ hxk,
          filter_append_singleton_ne _ _ _ _ (fun e => hxk e.symm)]
        exact hinv.seen x hxU

theorem categoryInv_step (header1 header2 : List Str) (U : List Nat) (acc : CategoryAcc)
    (c : Nat) (hinv : CategoryInv header1 header2 U acc)
    (hused : columnUsed header1 header2 c = true) :
    CategoryInv header1 header2 (U ++ [c]) (categoryStep header1 header2 acc c) := by
  cases hidx : Assoc.find (headerId header1 c) acc.categoryIndex with
  | none => exact categoryInv_new _ _ _ _ _ hinv hused hidx
  | some i => exact categoryInv_old _ _ _ _ _ hinv hused i hidx

theorem categoryInv_foldl (header1 header2 : List Str) (cs U : List Nat) (acc : CategoryAcc)
    (hinv : CategoryInv header1 header2 U acc) :
    CategoryInv header1 header2 (U ++ cs.filter (columnUsed header1 header2))
      (cs.foldl (categoryStep header1 header2) acc) := by
  induction cs generalizing U acc with
  | nil => simpa using hinv
  | cons c cs ih =>
    rw [List.foldl_cons]
    by_cases hused : columnUsed header1 header2 c = true
    · rw [List.filter_cons_of_pos hused]
      have := ih (U ++ [c]) _ (categoryInv_step _ _ _ _ _ hinv hused)
      simpa using this
    · rw [List.filter_cons_of_neg hused, categoryStep_unused _ _ _ _ (by simpa using hused)]
      exact ih U acc hinv

theorem categoryInv_init (header1 header2 : List Str) :
    CategoryInv header1 header2 []
      { categories := [], categoryIndex := [], optionsByCategory := [] } := by
  refine ⟨rfl, ?_, ?_, ?_⟩
  · intro k i h
    exact Option.noConfusion h
  · intro k
    simp [Assoc.find]
  · intro k hk
    simp at hk

theorem buildCategories_eq (header1 header2 : List Str) :
    buildCategories header1 header2 =
      categoriesOfColumns header1 header2 (usedColumns header1 header2) := by
  unfold buildCategories
  have h := (categoryInv_foldl header1 header2 (columnRange header1.length) [] _
    (categoryInv_init header1 header2)).cats
  rw [h, List.nil_append, columnRange_eq_filter, List.filter_filter]
  unfold usedColumns
  congr 1
  apply List.filter_congr
  intro c _
  rw [Bool.and_comm]

theorem mem_usedColumns (header1 header2 : List Str) (c : Nat) :
    c ∈ usedColumns header1 header2 ↔
      ID_COLS ≤ c ∧ c < header1.length ∧ headerId header1 c ≠ [] ∧ headerId header2 c ≠ [] := by
  simp only [usedColumns, List.mem_filter, List.mem_range, Bool.and_eq_true, decide_eq_true_eq,
    columnUsed]
  tauto

theorem map_id_optionsOfColumns (header2 : List Str) (cols : List Nat) :
    (optionsOfColumns header2 cols).map (fun o => o.id) =
      firstOccurrences (cols.map (headerId header2)) := by
  unfold optionsOfColumns
  rw [List.map_map]
  exact List.map_id _

theorem map_id_categoriesOfColumns (header1 header2 : List Str) (cols : List Nat) :
    (categoriesOfColumns header1 header2 cols).map (fun cat => cat.id) =
      firstOccurrences (cols.map (headerId header1)) := by
  unfold categoriesOfColumns
  rw [List.map_map]
  exact List.map_id _

theorem headers_of_three_rows (text : Str) (h3 : 3 ≤ (parseCSV text).length) :
    ∃ header1 header2, (parseCSV text)[0]? = some header1 ∧
      (parseCSV text)[1]? = some header2 ∧
      (parseCSV text)[0]?.getD [] = header1 ∧ (parseCSV text)[1]?.getD [] = header2 := by
  cases hrows : parseCSV text with
  | nil => rw [hrows] at h3; simp at h3
  | cons r0 tl =>
    cases tl with
    | nil => rw [hrows] at h3; simp at h3
    | cons r1 tl' => exact ⟨r0, r1, by simp, by simp, by simp, by simp⟩

theorem categories_of_three_rows (text : Str) (h3 : 3 ≤ (parseCSV text).length) :
    ∃ config header1 header2,
      buildConfigFromCSV text = .ok config ∧
      (parseCSV text)[0]? = some header1 ∧ (parseCSV text)[1]? = some header2 ∧
      (∀ c, c ∈ usedColumns header1 header2 ↔
        ID_COLS ≤ c ∧ c < header1.length ∧ (parseHeaderCell header1[c]?).id ≠ [] ∧
          (parseHeaderCell header2[c]?).id ≠ []) ∧
      config.categories = categoriesOfColumns header1 header2 (usedColumns header1 header2) ∧
      config.categories.map (fun cat => cat.id) =
        firstOccurrences ((usedColumns header1 header2).map
          (fun c => (parseHeaderCell header1[c]?).id)) ∧
      (config.categories.map (fun cat => cat.id)).Nodup ∧
      ∀ cat, cat ∈ config.categories →
        cat.id ≠ [] ∧
        cat.label = labelOfFirst header1 (usedColumns header1 header2) cat.id ∧
        cat.options.map (fun o => o.id) =
          firstOccurrences
            (((usedColumns header1 header2).filter
              (fun c => decide ((parseHeaderCell header1[c]?).id = cat.id))).map
              (fun c => (parseHeaderCell header2[c]?).id)) ∧
        (cat.options.map (fun o => o.id)).Nodup ∧
        ∀ o, o ∈ cat.options →
          o.id ≠ [] ∧
          o.label = labelOfFirst header2
            ((usedColumns header1 header2).filter
              (fun c => decide ((parseHeaderCell header1[c]?).id = cat.id))) o.id := by
  obtain ⟨header1, header2, e1, e2, g1, g2⟩ := headers_of_three_rows text h3
  have hok := buildConfigFromCSV_ok text h3
  rw [g1, g2] at hok
  refine ⟨_, header1, header2, hok, e1, e2, mem_usedColumns header1 header2, ?_, ?_, ?_, ?_⟩
  · exact buildCategories_eq header1 header2
  · show (buildCategories header1 header2).map _ = _
    rw [buildCategories_eq]
    exact map_id_categoriesOfColumns _ _ _
  · show ((buildCategories header1 header2).map _).Nodup
    rw [buildCategories_eq, map_id_categoriesOfColumns]
    exact nodup_firstOccurrences _
  · intro cat hcat
    have hcat' : cat ∈ categoriesOfColumns header1 header2 (usedColumns header1 header2) := by
      rw [← buildCategories_eq]; exact hcat
    unfold categoriesOfColumns at hcat'
    obtain ⟨k, hk, rfl⟩ := List.mem_map.mp hcat'
    obtain ⟨c, hc, hck⟩ := List.mem_map.mp ((mem_firstOccurrences _ _).mp hk)
    refine ⟨?_, rfl, ?_, ?_, ?_⟩
    · show k ≠ []
      rw [← hck]
      exact ((mem_usedColumns _ _ c).mp hc).2.2.1
    · exact map_id_optionsOfColumns _ _
    · show ((optionsOfColumns header2 _).map _).Nodup
      rw [map_id_optionsOfColumns]
      exact nodup_firstOccurrences _
    · intro o ho
      have ho' : o ∈ optionsOfColumns header2
          ((usedColumns header1 header2).filter (fun c => decide (headerId header1 c = k))) := ho
      unfold optionsOfColumns at ho'
      obtain ⟨oid, hoid, rfl⟩ := List.mem_map.mp ho'
      obtain ⟨c', hc', hco⟩ := List.mem_map.mp ((mem_firstOccurrences _ _).mp hoid)
      refine ⟨?_, rfl⟩
      show oid ≠ []
      rw [← hco]
      exact ((mem_usedColumns _ _ c').mp (List.mem_filter.mp hc').1).2.2.2

/-- Claim C13: for every input with at least three rows, the categories of the result
are the distinct category ids decoded from the used columns (index at least 5 of the
first header row, both decoded ids non-empty), in order of first appearance and
pairwise distinct, each non-empty; the options of a category are the distinct option
ids of its columns, in order of first appearance and pairwise distinct, and every
category and option carries the label of its first sighting. -/
theorem buildConfigFromCSV_categories (text : Str) (h3 : 3 ≤ (parseCSV text).length) :
    ∃ config header1 header2,
      buildConfigFromCSV text = .ok config ∧
      (parseCSV text)[0]? = some header1 ∧ (parseCSV text)[1]? = some header2 ∧
      (∀ c, c ∈ usedColumns header1 header2 ↔
        ID_COLS ≤ c ∧ c < header1.length ∧ (parseHeaderCell header1[c]?).id ≠ [] ∧
          (parseHeaderCell header2[c]?).id ≠ []) ∧
      config.categories = categoriesOfColumns header1 header2 (usedColumns header1 header2) ∧
      config.categories.map (fun cat => cat.id) =
        firstOccurrences ((usedColumns header1 header2).map
          (fun c => (parseHeaderCell header1[c]?).id)) ∧
      (config.categories.map (fun cat => cat.id)).Nodup ∧
      ∀ cat, cat ∈ config.categories →
        cat.id ≠ [] ∧
        cat.label = labelOfFirst header1 (usedColumns header1 header2) cat.id ∧
        cat.options.map (fun o => o.id) =
          firstOccurrences
            (((usedColumns header1 header2).filter
              (fun c => decide ((parseHeaderCell header1[c]?).id = cat.id))).map
              (fun c => (parseHeaderCell header2[c]?).id)) ∧
        (cat.options.map (fun o => o.id)).Nodup ∧
        ∀ o, o ∈ cat.options →
          o.id ≠ [] ∧
          o.label = labelOfFirst header2
            ((usedColumns header1 header2).filter
              (fun c => decide ((parseHeaderCell header1[c]?).id = cat.id))) o.id :=
  categories_of_three_rows text h3

theorem buildConfigFromCSV_categories_witness :
    3 ≤ (parseCSV scenarioText).length ∧
    ∃ config, buildConfigFromCSV scenarioText = .ok config ∧
      config.categories.map (fun cat => (cat.id, cat.options.map (fun o => o.id))) =
        [(['s', 'z'], [['s'], ['l']]), (['c', 'l', 'r'], [['r']])] := by
  refine ⟨by decide, ?_⟩
  obtain ⟨config, header1, header2, hok, _⟩ :=
    buildConfigFromCSV_categories scenarioText (by decide)
  refine ⟨config, hok, ?_⟩
  have h := buildConfigFromCSV_ok scenarioText (by decide)
  rw [hok] at h
  rw [Except.ok.inj h]
  decide

/-! ## Properties of header decoding -/

theorem jsSplit_ne_nil (sep : Char) (s : Str) : jsSplit sep s ≠ [] := by
  induction s with
  | nil => simp [jsSplit]
  | cons c cs ih =>
    unfold jsSplit
    split
    · simp
    · split <;> simp

theorem jsSplit_head (sep : Char) (s : Str) :
    (jsSplit sep s)[0]? = some (s.takeWhile (fun ch => decide (ch ≠ sep))) := by
  induction s with
  | nil => rfl
  | cons c cs ih =>
    unfold jsSplit
    by_cases h : c = sep
    · simp [h]
    · rw [if_neg h]
      cases hsplit : jsSplit sep cs with
      | nil => exact absurd hsplit (jsSplit_ne_nil sep cs)
      | cons piece pieces =>
        rw [hsplit] at ih
        simp only [List.getElem?_cons_zero, Option.some.injEq] at ih
        simp [h, ih]

theorem jsSplit_second (sep : Char) (s : Str) :
    (jsSplit sep s)[1]? =
      if sep ∈ s then
        some (((s.dropWhile (fun ch => decide (ch ≠ sep))).drop 1).takeWhile
          (fun ch => decide (ch ≠ sep)))
      else none := by
  induction s with
  | nil => rfl
  | cons c cs ih =>
    unfold jsSplit
    by_cases h : c = sep
    · subst h
      simp only [if_true, List.getElem?_cons_succ, List.mem_cons, true_or, ne_eq,
        not_true_eq_false, decide_False, List.dropWhile_cons_of_neg, Bool.false_eq_true,
        not_false_eq_true, List.drop_succ_cons, List.drop_zero]
      exact jsSplit_head c cs
    · rw [if_neg h]
      have h' : ¬ sep = c := fun e => h e.symm
      cases hsplit : jsSplit sep cs with
      | nil => exact absurd hsplit (jsSplit_ne_nil sep cs)
      | cons piece pieces =>
        rw [hsplit] at ih
        simp only [List.getElem?_cons_succ] at ih ⊢
        rw [ih]
        simp [h, h']

theorem jsOr_some_nil (s : Str) : jsOr (some s) [] = s := by
  unfold jsOr
  by_cases h : s = []
  · simp [h]
  · simp [h]

theorem parseHeaderCell_id (cell : Str) :
    (parseHeaderCell (some cell)).id = jsTrim (beforeFirstSeparator cell) := by
  unfold parseHeaderCell beforeFirstSeparator
  simp only [jsOr_some_nil, jsSplit_head]

theorem parseHeaderCell_label (cell : Str) :
    (parseHeaderCell (some cell)).label =
      jsTrim (jsOr
        (if '|' ∈ cell then some (beforeFirstSeparator (afterFirstSeparator cell)) else none)
        (beforeFirstSeparator cell)) := by
  unfold parseHeaderCell beforeFirstSeparator afterFirstSeparator
  simp only [jsOr_some_nil, jsSplit_head, jsSplit_second]

theorem labelOfFirst_spec (header : List Str) (cols : List Nat) (k : Str)
    (hk : k ∈ cols.map (headerId header)) :
    ∃ c, c ∈ cols ∧ headerId header c = k ∧ labelOfFirst header cols k = headerLabel header c := by
  obtain ⟨c0, hc0, hid⟩ := List.mem_map.mp hk
  unfold labelOfFirst
  cases hf : cols.find? (fun c => decide (headerId header c = k)) with
  | none =>
    rw [List.find?_eq_none] at hf
    exact absurd (by simpa using hid) (hf c0 hc0)
  | some c1 =>
    have h1 := List.find?_some hf
    have h2 := List.mem_of_find?_eq_some hf
    exact ⟨c1, h2, by simpa using h1, rfl⟩

/-- Counterexample to claim C18 as stated: for the cell `a|b|c` the text after the
first separator is `b|c`, and the label returned is `b`. -/
theorem header_label_counterexample :
    afterFirstSeparator ['a', '|', 'b', '|', 'c'] = ['b', '|', 'c'] ∧
    jsTrim (afterFirstSeparator ['a', '|', 'b', '|', 'c']) = ['b', '|', 'c'] ∧
    parseHeaderCell (some ['a', '|', 'b', '|', 'c']) = { id := ['a'], label := ['b'] } := by
  decide

/-- Claim C18, amended: for every header cell, `parseHeaderCell` returns as id the
trimmed text before the first `|`; as label the trimmed text between the first and
the second `|` (up to the end of the cell when there is no second one) when that
text has a character that is not blank; and a label equal to the decoded id when
nothing follows the separator or the separator is absent.  Every category and option
created by `buildConfigFromCSV` has a non-empty id and carries the id and label
decoded from one header cell of a column of index at least 5. -/
theorem parseHeaderCell_amended (cell : Str) :
    (parseHeaderCell (some cell)).id = jsTrim (beforeFirstSeparator cell) ∧
    ('|' ∉ cell → (parseHeaderCell (some cell)).label = (parseHeaderCell (some cell)).id) ∧
    ('|' ∈ cell → beforeFirstSeparator (afterFirstSeparator cell) = [] →
      (parseHeaderCell (some cell)).label = (parseHeaderCell (some cell)).id) ∧
    ('|' ∈ cell → jsTrim (beforeFirstSeparator (afterFirstSeparator cell)) ≠ [] →
      (parseHeaderCell (some cell)).label =
        jsTrim (beforeFirstSeparator (afterFirstSeparator cell))) ∧
    ('|' ∉ afterFirstSeparator cell →
      beforeFirstSeparator (afterFirstSeparator cell) = afterFirstSeparator cell) ∧
    parseHeaderCell none = { id := [], label := [] } ∧
    (∀ text : Str, 3 ≤ (parseCSV text).length →
      ∃ config header1 header2,
        buildConfigFromCSV text = .ok config ∧
        (parseCSV text)[0]? = some header1 ∧ (parseCSV text)[1]? = some header2 ∧
        ∀ cat, cat ∈ config.categories →
          cat.id ≠ [] ∧
          (∃ c, ID_COLS ≤ c ∧ parseHeaderCell header1[c]? = { id := cat.id, label := cat.label }) ∧
          ∀ o, o ∈ cat.options →
            o.id ≠ [] ∧
            ∃ c, ID_COLS ≤ c ∧ parseHeaderCell header2[c]? = { id := o.id, label := o.label }) := by
  refine ⟨parseHeaderCell_id cell, ?_, ?_, ?_, ?_, by decide, ?_⟩
  · intro h
    rw [parseHeaderCell_label, parseHeaderCell_id, if_neg h]
    rfl
  · intro h hnil
    rw [parseHeaderCell_label, parseHeaderCell_id, if_pos h, hnil]
    rfl
  · intro h hne
    have hpiece : beforeFirstSeparator (afterFirstSeparator cell) ≠ [] := by
      intro e
      rw [e] at hne
      exact hne (by decide)
    rw [parseHeaderCell_label, if_pos h]
    simp only [jsOr, hpiece, if_false]
  · intro h
    unfold beforeFirstSeparator
    rw [List.takeWhile_eq_self_iff]
    intro ch hch
    simp only [ne_eq, decide_eq_true_eq]
    rintro rfl
    exact h hch
  · intro text h3
    obtain ⟨config, header1, header2, hok, e1, e2, _, hcats, _, _, hall⟩ :=
      categories_of_three_rows text h3
    refine ⟨config, header1, header2, hok, e1, e2, ?_⟩
    intro cat hcat
    obtain ⟨hid, hlabel, hoids, _, hopts⟩ := hall cat hcat
    have hmem : cat.id ∈ (usedColumns header1 header2).map (headerId header1) := by
      rw [← mem_firstOccurrences, ← map_id_categoriesOfColumns header1 header2, ← hcats]
      exact List.mem_map_of_mem _ hcat
    obtain ⟨c, hc, hcid, hclabel⟩ := labelOfFirst_spec header1 _ _ hmem
    refine ⟨hid, ⟨c, ((mem_usedColumns _ _ c).mp hc).1, ?_⟩, ?_⟩
    · rw [hlabel, hclabel, ← hcid]
      rfl
    · intro o ho
      obtain ⟨hoid, holabel⟩ := hopts o ho
      have homem : o.id ∈ ((usedColumns header1 header2).filter
          (fun c => decide ((parseHeaderCell header1[c]?).id = cat.id))).map
          (headerId header2) := by
        rw [← mem_firstOccurrences]
        have := List.mem_map_of_mem (fun o : OptionDef => o.id) ho
        rw [hoids] at this
        exact this
      obtain ⟨c', hc', hc'id, hc'label⟩ := labelOfFirst_spec header2 _ _ homem
      refine ⟨hoid, c', ((mem_usedColumns _ _ c').mp (List.mem_filter.mp hc').1).1, ?_⟩
      rw [holabel, hc'label, ← hc'id]
      rfl

/-! ## Instances at concrete inputs -/

theorem optionIsSupported_spec_witness :
    (JSObject.fromEntries [(['s', 'z'], ['s'])] : Selection).get? ['s', 'z'] = some ['s'] ∧
    ((optionIsSupported sampleState ['s', 'z'] ['s']).1 = true ↔
      ∃ entry, entry ∈ sampleState.processEntries ∧
        isCompatible entry.compatibility (JSObject.fromEntries [(['s', 'z'], ['s'])]) = true) ∧
    (optionIsSupported sampleState ['s', 'z'] ['s']).2 = sampleState :=
  ⟨by decide,
    optionIsSupported_spec sampleState ['s', 'z'] ['s'] (JSObject.fromEntries [(['s', 'z'], ['s'])])
      (by decide)
      (fun k hk => by
        have hk' : ¬ ['s', 'z'] = k := fun e => hk e.symm
        simp [sampleState, JSObject.get?, JSObject.fromEntries, JSObject.set, JSObject.empty,
          Assoc.put, Assoc.find, hk'])⟩

theorem permissive_default_amended_witness :
    (JSObject.fromEntries [(['s', 'z'], CompatValue.arr [['s']])] : CompatMap).get?
      ['c', 'l', 'r'] = none ∧
    (JSObject.fromEntries [(['s', 'z'], ['s'])] : Selection).get? ['c', 'l', 'r'] = none ∧
    ∀ v, isCompatible
        ((JSObject.fromEntries [(['s', 'z'], CompatValue.arr [['s']])] : CompatMap).set
          ['c', 'l', 'r'] v)
        (JSObject.fromEntries [(['s', 'z'], ['s'])]) =
      isCompatible (JSObject.fromEntries [(['s', 'z'], CompatValue.arr [['s']])])
        (JSObject.fromEntries [(['s', 'z'], ['s'])]) :=
  ⟨by decide, by decide,
    (permissive_default_amended (JSObject.fromEntries [(['s', 'z'], CompatValue.arr [['s']])])
      ['c', 'l', 'r'] (JSObject.fromEntries [(['s', 'z'], ['s'])]) (by decide) (by decide)).2⟩
